import Mathlib

/-!
Verification of the front end (token model, lexer, Pratt parser, AST) of the
kraytos17/interpreter repository. Definitions are shallow embeddings of the
Go source files (`token`, `ast/ast.go`, `parser/parser.go`); components of the
repository that are not present in the source tree (the lexer and the
expression-side AST renderings) are modelled from the specification and
marked as such in their doc comments.
-/

namespace Interp

/-- Token kinds, from the `token` package constants. -/
inductive TokenType where
  | ILLEGAL | EOF | IDENT | INT | ASSIGN | PLUS | COMMA | SEMICOLON
  | LPAREN | RPAREN | LBRACE | RBRACE | MINUS | BANG | ASTERISK | SLASH
  | LT | GT | EQ | NOTEQ | FUNCTION | LET | TRUE | FALSE | IF | ELSE | RETURN
deriving DecidableEq, Repr

/-- The string value of each token-kind constant in the `token` package
(`TokenType` is a string type in the source; `LPAREN` is the string paren,
`EQ` is the two-character operator text, and so on). -/
def ttStr : TokenType → String
  | .ILLEGAL => "ILLEGAL"
  | .EOF => "EOF"
  | .IDENT => "IDENT"
  | .INT => "INT"
  | .ASSIGN => "ASSIGN"
  | .PLUS => "PLUS"
  | .COMMA => "COMMA"
  | .SEMICOLON => "SEMICOLON"
  | .LPAREN => "("
  | .RPAREN => ")"
  | .LBRACE => "\x7b"
  | .RBRACE => "\x7d"
  | .MINUS => "-"
  | .BANG => "!"
  | .ASTERISK => "*"
  | .SLASH => "/"
  | .LT => "<"
  | .GT => ">"
  | .EQ => "=="
  | .NOTEQ => "!="
  | .FUNCTION => "FUNCTION"
  | .LET => "LET"
  | .TRUE => "TRUE"
  | .FALSE => "FALSE"
  | .IF => "IF"
  | .ELSE => "ELSE"
  | .RETURN => "RETURN"

/-- A token: kind plus literal text, from `token.Token`. -/
structure Token where
  type : TokenType
  literal : String
deriving DecidableEq, Repr

/-- Keyword lookup from `token.LookupIdent`: reserved words map to their
keyword kinds, everything else to `IDENT`. -/
def LookupIdent (ident : String) : TokenType :=
  if ident = "fn" then .FUNCTION
  else if ident = "let" then .LET
  else if ident = "if" then .IF
  else if ident = "else" then .ELSE
  else if ident = "true" then .TRUE
  else if ident = "false" then .FALSE
  else if ident = "return" then .RETURN
  else .IDENT

/-- An identifier node, from `ast.Identifier` (token plus its literal value). -/
structure Identifier where
  tok : Token
  value : String
deriving DecidableEq, Repr

mutual
/-- AST expression nodes. `Identifier` is from `ast/ast.go`; the remaining
expression variants are not present in the source tree and their fields are
Modelled from the spec: section 3's variant list, matching exactly the fields
the parser source assigns. A child of type `Option _` is the spec's explicit
"parse failed" absence marker (a nil interface value in the source). -/
inductive Expr where
  | identifierE (id : Identifier)
  | integerLiteralE (tok : Token) (value : Int)
  | booleanE (tok : Token) (value : Bool)
  | prefixE (tok : Token) (operator : String) (right : Option Expr)
  | infixE (tok : Token) (operator : String) (left : Option Expr) (right : Option Expr)
  | ifE (tok : Token) (condition : Option Expr) (consequence : Option Block)
      (alternative : Option Block)
  | functionLitE (tok : Token) (params : Option (List Identifier)) (body : Option Block)
  | callE (tok : Token) (function : Option Expr) (args : Option (List (Option Expr)))

/-- AST statement nodes, from `ast/ast.go` (`LetStatement`, `ReturnStatement`,
`ExpressionStatement`). `name` of a let statement is always assigned before
the node is returned in `parseLetStatement`, hence non-optional. -/
inductive Stmt where
  | letS (tok : Token) (name : Identifier) (value : Option Expr)
  | returnS (tok : Token) (returnVal : Option Expr)
  | exprS (tok : Token) (expression : Option Expr)

/-- A block statement: the statement list may record absent (failed) entries,
mirroring the unconditional append in `parseBlockStatement`. -/
inductive Block where
  | mk (tok : Token) (statements : List (Option Stmt))
end

/-- The root node, from `ast.Program`: an ordered sequence of top-level
statement slots (a slot is `none` when the parse of that statement returned
no node — `ParseProg` appends the result of every attempt). -/
structure Program where
  statements : List (Option Stmt)

/-- Comma-separated renderings of parameter identifiers (Modelled from the
spec: section 6). -/
def stringIdentList : List Identifier → String
  | [] => ""
  | [id] => id.value
  | id :: rest => id.value ++ ", " ++ stringIdentList rest

/-- Rendering of a possibly absent parameter list. -/
def stringParamsOpt (params : Option (List Identifier)) : String :=
  match params with
  | some l => stringIdentList l
  | none => ""

mutual
/-- Canonical rendering of an expression. `Identifier` rendering is from
`ast/ast.go` (its value text); the remaining variants' renderings are
Modelled from the spec: section 6 (literal concatenation of sub-renderings
with the original operator/keyword text, a literal's token text for literals). -/
def stringExpr : Expr → String
  | .identifierE id => id.value
  | .integerLiteralE tok _ => tok.literal
  | .booleanE tok _ => tok.literal
  | .prefixE _ op right => op ++ stringExprOpt right
  | .infixE _ op left right => stringExprOpt left ++ op ++ stringExprOpt right
  | .ifE tok cond cons alt =>
      tok.literal ++ stringExprOpt cond ++ stringBlockOpt cons ++ stringBlockOpt alt
  | .functionLitE tok params body =>
      tok.literal ++ stringParamsOpt params ++ stringBlockOpt body
  | .callE _ fn args => stringExprOpt fn ++ "(" ++ stringArgsOpt args ++ ")"

/-- Rendering of a possibly absent expression child: the absence marker
renders as the empty string (the source's nil checks). -/
def stringExprOpt : Option Expr → String
  | some e => stringExpr e
  | none => ""

/-- Canonical rendering of a statement, from `ast/ast.go`: `LetStatement`
renders its keyword literal, a space, the name, an equals sign with spaces,
the value (only when present) and a semicolon; `ReturnStatement` renders its
keyword literal, a space, the value (only when present) and a semicolon;
`ExpressionStatement` renders its expression, or the empty string when the
expression is absent. -/
def stringStmt : Stmt → String
  | .letS tok name value =>
      tok.literal ++ " " ++ name.value ++ " = " ++ stringExprOpt value ++ ";"
  | .returnS tok value => tok.literal ++ " " ++ stringExprOpt value ++ ";"
  | .exprS _ e => stringExprOpt e

/-- Rendering of a block: the concatenation of its statements' renderings
(Modelled from the spec: section 6, concatenation with no added brackets). -/
def stringBlock : Block → String
  | .mk _ stmts => stringOptStmtList stmts

/-- Rendering of an optional block child (absent renders empty). -/
def stringBlockOpt : Option Block → String
  | some b => stringBlock b
  | none => ""

/-- Concatenated renderings of a statement list, skipping nothing: an absent
entry contributes the empty string. -/
def stringOptStmtList : List (Option Stmt) → String
  | [] => ""
  | none :: rest => stringOptStmtList rest
  | some s :: rest => stringStmt s ++ stringOptStmtList rest

/-- Comma-separated renderings of call arguments (Modelled from the spec:
section 6). -/
def stringExprOptList : List (Option Expr) → String
  | [] => ""
  | [e] => stringExprOpt e
  | e :: rest => stringExprOpt e ++ ", " ++ stringExprOptList rest

/-- Rendering of a possibly absent argument list. -/
def stringArgsOpt : Option (List (Option Expr)) → String
  | some l => stringExprOptList l
  | none => ""
end

/-- Letter class for identifiers (Modelled from the spec: section 4.1, "a
letter or underscore" starts an identifier; the lexer source is not in the
tree). -/
def isLetterCh (c : Char) : Bool :=
  ('a' ≤ c && c ≤ 'z') || ('A' ≤ c && c ≤ 'Z') || c = '_'

/-- Digit class (Modelled from the spec: section 4.1). -/
def isDigitCh (c : Char) : Bool := '0' ≤ c && c ≤ '9'

/-- Whitespace class (Modelled from the spec: section 4.1, space, tab,
newline, carriage return). -/
def isWsCh (c : Char) : Bool := c = ' ' || c = '\t' || c = '\n' || c = '\r'

/-- Skip leading whitespace (Modelled from the spec: section 4.1 step 1). -/
def skipWs : List Char → List Char
  | [] => []
  | c :: rest => if isWsCh c then skipWs rest else c :: rest

/-- Identifier/number continuation class (Modelled from the spec: section 4.1
step 3, a maximal run of letters, digits and underscores). -/
def isIdentCh (c : Char) : Bool := isLetterCh c || isDigitCh c

/-- Produce one token from whitespace-skipped input, returning the token and
the remaining characters. Modelled from the spec: section 4.1 (the lexer
source file is not in the tree): end-of-input yields `EOF`; a letter or
underscore starts a keyword/identifier run; a digit starts an integer-literal
run; symbols use one character of lookahead to recognize the two-character
operators; anything else is an `ILLEGAL` token carrying that character. -/
def nextTokenL : List Char → Token × List Char
  | [] => (⟨.EOF, ""⟩, [])
  | c :: rest =>
    if isLetterCh c then
      let run := (c :: rest).takeWhile isIdentCh
      let lit := String.mk run
      (⟨LookupIdent lit, lit⟩, (c :: rest).dropWhile isIdentCh)
    else if isDigitCh c then
      let run := (c :: rest).takeWhile isDigitCh
      (⟨.INT, String.mk run⟩, (c :: rest).dropWhile isDigitCh)
    else if c = '=' then
      match rest with
      | '=' :: r2 => (⟨.EQ, "=="⟩, r2)
      | _ => (⟨.ASSIGN, "="⟩, rest)
    else if c = '!' then
      match rest with
      | '=' :: r2 => (⟨.NOTEQ, "!="⟩, r2)
      | _ => (⟨.BANG, "!"⟩, rest)
    else if c = '+' then (⟨.PLUS, "+"⟩, rest)
    else if c = '-' then (⟨.MINUS, "-"⟩, rest)
    else if c = '*' then (⟨.ASTERISK, "*"⟩, rest)
    else if c = '/' then (⟨.SLASH, "/"⟩, rest)
    else if c = '<' then (⟨.LT, "<"⟩, rest)
    else if c = '>' then (⟨.GT, ">"⟩, rest)
    else if c = ',' then (⟨.COMMA, ","⟩, rest)
    else if c = ';' then (⟨.SEMICOLON, ";"⟩, rest)
    else if c = '(' then (⟨.LPAREN, "("⟩, rest)
    else if c = ')' then (⟨.RPAREN, ")"⟩, rest)
    else if c = '\x7b' then (⟨.LBRACE, "\x7b"⟩, rest)
    else if c = '\x7d' then (⟨.RBRACE, "\x7d"⟩, rest)
    else (⟨.ILLEGAL, String.singleton c⟩, rest)

/-- Repeatedly produce tokens until end-of-input, with fuel for the
recursion; the produced sequence ends with the single `EOF` token (Modelled
from the spec: section 4.1). -/
def tokenizeFuel : Nat → List Char → List Token
  | 0, _ => []
  | n + 1, cs =>
    let (t, rest) := nextTokenL (skipWs cs)
    if t.type = .EOF then [t] else t :: tokenizeFuel n rest

/-- Tokenize a complete input text (the fuel bound suffices because every
produced token consumes at least one character). -/
def tokenize (s : String) : List Token :=
  tokenizeFuel (s.length + 1) s.toList

/-- Digit value of a character as in Go strconv.ParseUint: decimal digits,
then case-insensitive letters valued ten and up. -/
def digitVal : Char → Option Nat := fun c =>
  if '0' ≤ c && c ≤ '9' then some (c.toNat - '0'.toNat)
  else if 'a' ≤ c && c ≤ 'z' then some (c.toNat - 'a'.toNat + 10)
  else if 'A' ≤ c && c ≤ 'Z' then some (c.toNat - 'A'.toNat + 10)
  else none

/-- The largest unsigned 64-bit value, strconv.ParseUint's maxVal at bit
size 64. -/
def maxValU64 : Nat := 2 ^ 64 - 1

/-- Base detection for strconv base 0: a prefix of zero with b, o or x (when
at least one more character follows) selects binary, octal or hexadecimal; a
bare leading zero selects octal; otherwise decimal. Returns the base and the
remaining characters. -/
def detectBase : List Char → Nat × List Char
  | '0' :: rest =>
    match rest with
    | c :: rest2 =>
      if rest2 ≠ [] && (c = 'b' || c = 'B') then (2, rest2)
      else if rest2 ≠ [] && (c = 'o' || c = 'O') then (8, rest2)
      else if rest2 ≠ [] && (c = 'x' || c = 'X') then (16, rest2)
      else (8, c :: rest2)
    | [] => (8, [])
  | s => (10, s)

/-- State of Go strconv's underscoreOK scan: start of number, digit or base
prefix, underscore, or other. -/
inductive USaw where
  | start | digit | under | other
deriving DecidableEq, Repr

/-- Main scan of Go strconv's underscoreOK: an underscore must follow and be
followed by a digit (the base prefix counting as a digit). -/
def underscoreOKLoop (hex : Bool) : List Char → USaw → Bool
  | [], saw => saw ≠ .under
  | c :: rest, saw =>
    if ('0' ≤ c && c ≤ '9') || (hex && (('a' ≤ c && c ≤ 'f') || ('A' ≤ c && c ≤ 'F'))) then
      underscoreOKLoop hex rest .digit
    else if c = '_' then
      if saw ≠ .digit then false else underscoreOKLoop hex rest .under
    else if saw = .under then false
    else underscoreOKLoop hex rest .other

/-- Go strconv's underscoreOK: underscores in the text are permitted only
between digits or between a base prefix and a digit. -/
def underscoreOK (s : List Char) : Bool :=
  let s1 := match s with
    | c :: r => if c = '-' || c = '+' then r else s
    | [] => s
  match s1 with
  | '0' :: c :: rest =>
    if c = 'b' || c = 'B' || c = 'o' || c = 'O' || c = 'x' || c = 'X' then
      underscoreOKLoop (c = 'x' || c = 'X') rest .digit
    else underscoreOKLoop false s1 .start
  | _ => underscoreOKLoop false s1 .start

/-- Digit-accumulation loop of Go strconv.ParseUint at base 0: underscores
are skipped (recorded), a non-digit or a digit at or above the base is a
syntax error, and the two overflow checks (accumulator at or above the
cutoff before multiplying; result above maxVal after adding) are range
errors. Returns the accumulated value and whether an underscore was seen. -/
def parseUintLoop (base cutoff maxVal : Nat) : List Char → Nat → Bool → Option (Nat × Bool)
  | [], n, unders => some (n, unders)
  | c :: rest, n, unders =>
    if c = '_' then parseUintLoop base cutoff maxVal rest n true
    else
      match digitVal c with
      | none => none
      | some d =>
        if d ≥ base then none
        else if n ≥ cutoff then none
        else
          let n1 := n * base + d
          if n1 > maxVal then none else parseUintLoop base cutoff maxVal rest n1 unders

/-- Go strconv.ParseUint(s, 0, 64): detect the base, run the digit loop with
the 64-bit cutoffs, and reject underscores that violate underscoreOK. -/
def parseUint0 (s : List Char) : Option Nat :=
  if s = [] then none
  else
    let (base, s1) := detectBase s
    let cutoff := maxValU64 / base + 1
    match parseUintLoop base cutoff maxValU64 s1 0 false with
    | none => none
    | some (n, unders) => if unders && !underscoreOK s then none else some n

/-- Go strconv.ParseInt(s, 0, 64) at the option level (any error is `none`):
strip an optional sign, convert the unsigned body, and reject values outside
the signed 64-bit range. -/
def goParseInt (str : String) : Option Int :=
  match str.toList with
  | [] => none
  | c :: r =>
    let (neg, s1) : Bool × List Char :=
      if c = '+' then (false, r) else if c = '-' then (true, r) else (false, c :: r)
    match parseUint0 s1 with
    | none => none
    | some un =>
      if !neg && un ≥ 2 ^ 63 then none
      else if neg && un > 2 ^ 63 then none
      else if neg then some (-(un : Int)) else some (un : Int)

/-- Precedence level LOWEST from the parser's iota block (values start at 1). -/
def LOWEST : Nat := 1

/-- Precedence level EQUALS. -/
def EQUALS : Nat := 2

/-- Precedence level GTLT. -/
def GTLT : Nat := 3

/-- Precedence level SUM. -/
def SUM : Nat := 4

/-- Precedence level PRODUCT. -/
def PRODUCT : Nat := 5

/-- Precedence level PREFIX. -/
def PREFIX : Nat := 6

/-- Precedence level CALL. -/
def CALL : Nat := 7

/-- The `precedences` table: token kinds not listed take LOWEST (the
lookup's default in `peekPrecedence`/`currPrecendence`). -/
def precedenceOf : TokenType → Nat
  | .EQ => EQUALS
  | .NOTEQ => EQUALS
  | .LT => GTLT
  | .GT => GTLT
  | .PLUS => SUM
  | .MINUS => SUM
  | .SLASH => PRODUCT
  | .ASTERISK => PRODUCT
  | .LPAREN => CALL
  | _ => LOWEST

/-- Parser state: the token stream (as produced by the lexer), the cursor of
the current token, and the accumulated diagnostics. The current and peek
tokens of the source's two-token window are the stream at `pos` and
`pos + 1`; reading past the end yields the end-of-input token, which is what
the lexer idempotently returns there. -/
structure PState where
  toks : List Token
  pos : Nat
  errors : List String
deriving DecidableEq, Repr

/-- The end-of-input token the lexer yields once input is exhausted. -/
def eofToken : Token := ⟨.EOF, ""⟩

/-- The parser's current token. -/
def currToken (st : PState) : Token := st.toks.getD st.pos eofToken

/-- The parser's peek token. -/
def peekToken (st : PState) : Token := st.toks.getD (st.pos + 1) eofToken

/-- Advance the two-token window by one token (`nextTok`). -/
def nextTok (st : PState) : PState := { st with pos := st.pos + 1 }

/-- Kind test on the current token (`currTokenIs`). -/
def currTokenIs (t : TokenType) (st : PState) : Bool := (currToken st).type = t

/-- Kind test on the peek token (`peekTokenIs`). -/
def peekTokenIs (t : TokenType) (st : PState) : Bool := (peekToken st).type = t

/-- Precedence of the peek token (`peekPrecedence`). -/
def peekPrecedence (st : PState) : Nat := precedenceOf (peekToken st).type

/-- Precedence of the current token (`currPrecendence`, spelled as in the
source). -/
def currPrecendence (st : PState) : Nat := precedenceOf (currToken st).type

/-- The accessor `Errors`: the accumulated diagnostics. -/
def Errors (st : PState) : List String := st.errors

/-- The diagnostic recorded by `peekError`: the source formats the string
"Unexpexted token %s, expected %s" with the required kind first and the
kind of the parser's current token second. -/
def peekErrorMsg (t : TokenType) (st : PState) : String :=
  "Unexpexted token " ++ ttStr t ++ ", expected " ++ ttStr (currToken st).type

/-- Append the `peekError` diagnostic for required kind `t`. -/
def peekError (t : TokenType) (st : PState) : PState :=
  { st with errors := st.errors ++ [peekErrorMsg t st] }

/-- The mandatory-token check `expectPeek`: advance and succeed when the peek
token has the required kind, otherwise record the `peekError` diagnostic and
fail without advancing. -/
def expectPeek (t : TokenType) (st : PState) : Bool × PState :=
  if peekTokenIs t st then (true, nextTok st) else (false, peekError t st)

/-- The diagnostic recorded by `noPrefixParseFnError`. -/
def noPrefixMsg (t : TokenType) : String := "no prefix parse fn found for " ++ ttStr t

/-- Append the missing-prefix-handler diagnostic (`noPrefixParseFnError`). -/
def noPrefixParseFnError (t : TokenType) (st : PState) : PState :=
  { st with errors := st.errors ++ [noPrefixMsg t] }

/-- The identifier prefix handler (`parseIdentifier`). -/
def parseIdentifier (st : PState) : Expr :=
  .identifierE ⟨currToken st, (currToken st).literal⟩

/-- The boolean prefix handler (`parseBoolean`). -/
def parseBoolean (st : PState) : Expr :=
  .booleanE (currToken st) (currTokenIs .TRUE st)

/-- One quoted character of Go's %q formatting, for the printable character
range relevant here (every literal the lexer can attach to an INT token is a
run of digits). -/
def goQuoteChar (c : Char) : String :=
  if c = '"' then "\\\""
  else if c = '\\' then "\\\\"
  else if c = '\n' then "\\n"
  else if c = '\t' then "\\t"
  else if c = '\r' then "\\r"
  else String.singleton c

/-- Go %q quoting of a literal, as used in the integer-literal diagnostic. -/
def goQuote (s : String) : String :=
  "\"" ++ String.join (s.toList.map goQuoteChar) ++ "\""

/-- The integer-literal diagnostic text from `parseIntegerLiteral`. -/
def intErrMsg (lit : String) : String :=
  "could not parse " ++ goQuote lit ++ " as integer"

/-- The integer-literal prefix handler (`parseIntegerLiteral`): parse the
current token's literal with strconv.ParseInt(lit, 0, 64); on failure record
the diagnostic and return no node. -/
def parseIntegerLiteral (st : PState) : Option Expr × PState :=
  match goParseInt (currToken st).literal with
  | none =>
    (none, { st with errors := st.errors ++ [intErrMsg (currToken st).literal] })
  | some v => (some (.integerLiteralE (currToken st) v), st)

/-- The post-expression scan of `parseReturnStatement`: advance until the
current token is a semicolon. The fuel counts loop iterations; `none` means
the scan did not reach a semicolon within the given fuel — in the source,
where the lexer feeds end-of-input tokens forever, a stream with no
semicolon at or after the cursor makes this loop run forever. -/
def scanToSemi : Nat → PState → Option PState
  | 0, _ => none
  | n + 1, st =>
    if (currToken st).type = .SEMICOLON then some st else scanToSemi n (nextTok st)

/-- The closed set of registered prefix handlers (the source's
`registerPrefix` table built in `New`). -/
inductive PrefixFn where
  | pIdent | pIntLit | pPrefixExpr | pBool | pGrouped | pIf | pFunctionLit
deriving DecidableEq, Repr

/-- The prefix-handler registration table from `New`. -/
def prefixParseFns : TokenType → Option PrefixFn
  | .IDENT => some .pIdent
  | .INT => some .pIntLit
  | .BANG => some .pPrefixExpr
  | .MINUS => some .pPrefixExpr
  | .TRUE => some .pBool
  | .FALSE => some .pBool
  | .LPAREN => some .pGrouped
  | .IF => some .pIf
  | .FUNCTION => some .pFunctionLit
  | _ => none

/-- The closed set of registered infix handlers. -/
inductive InfixFn where
  | iInfixExpr | iCall
deriving DecidableEq, Repr

/-- The infix-handler registration table from `New`. -/
def infixParseFns : TokenType → Option InfixFn
  | .PLUS | .MINUS | .SLASH | .ASTERISK | .EQ | .NOTEQ | .LT | .GT => some .iInfixExpr
  | .LPAREN => some .iCall
  | _ => none

mutual
/-- `parseExpression`: look up the prefix handler for the current token
(recording a diagnostic and returning no node when there is none), run it,
then enter the infix loop. Every function of this block returns `none` only
when the fuel for nested calls and loop iterations runs out; the source's
nil results are the `none` in the carried value. -/
def parseExpression : Nat → Nat → PState → Option (Option Expr × PState)
  | 0, _, _ => none
  | n + 1, prec, st =>
    match prefixParseFns (currToken st).type with
    | none => some (none, noPrefixParseFnError (currToken st).type st)
    | some pf =>
      match runPrefixFn n pf st with
      | none => none
      | some (left, st1) => parseExprLoop n prec left st1

/-- The loop of `parseExpression`: while the peek token is not a semicolon
and binds tighter than the minimum precedence, and has an infix handler,
advance onto it and fold the handler over the left node. -/
def parseExprLoop : Nat → Nat → Option Expr → PState → Option (Option Expr × PState)
  | 0, _, _, _ => none
  | n + 1, prec, left, st =>
    if (peekToken st).type ≠ .SEMICOLON ∧ prec < peekPrecedence st then
      match infixParseFns (peekToken st).type with
      | none => some (left, st)
      | some f =>
        match runInfixFn n f left (nextTok st) with
        | none => none
        | some (left1, st1) => parseExprLoop n prec left1 st1
    else some (left, st)

/-- Dispatch of a registered prefix handler. -/
def runPrefixFn : Nat → PrefixFn → PState → Option (Option Expr × PState)
  | 0, _, _ => none
  | n + 1, pf, st =>
    match pf with
    | .pIdent => some (some (parseIdentifier st), st)
    | .pIntLit => some (parseIntegerLiteral st)
    | .pPrefixExpr => parsePrefixExpression n st
    | .pBool => some (some (parseBoolean st), st)
    | .pGrouped => parseGroupedExpression n st
    | .pIf => parseIfExpression n st
    | .pFunctionLit => parseFunctionLiteral n st

/-- Dispatch of a registered infix handler. -/
def runInfixFn : Nat → InfixFn → Option Expr → PState → Option (Option Expr × PState)
  | 0, _, _, _ => none
  | n + 1, f, left, st =>
    match f with
    | .iInfixExpr => parseInfixExpression n left st
    | .iCall => parseCallExpression n left st

/-- `parsePrefixExpression`: capture the operator token, advance, parse the
operand at PREFIX precedence. -/
def parsePrefixExpression : Nat → PState → Option (Option Expr × PState)
  | 0, _ => none
  | n + 1, st =>
    let tok := currToken st
    match parseExpression n PREFIX (nextTok st) with
    | none => none
    | some (right, st1) => some (some (.prefixE tok tok.literal right), st1)

/-- `parseInfixExpression`: capture operator token and its precedence,
advance, and parse the right-hand side — at one less than the captured
precedence when the operator text is a plus sign, at the captured precedence
itself for every other operator. -/
def parseInfixExpression : Nat → Option Expr → PState → Option (Option Expr × PState)
  | 0, _, _ => none
  | n + 1, left, st =>
    let tok := currToken st
    let prec := currPrecendence st
    let rprec := if tok.literal = "+" then prec - 1 else prec
    match parseExpression n rprec (nextTok st) with
    | none => none
    | some (right, st1) => some (some (.infixE tok tok.literal left right), st1)

/-- `parseGroupedExpression`: advance past the open paren, parse at LOWEST,
and require a closing paren (no node otherwise). -/
def parseGroupedExpression : Nat → PState → Option (Option Expr × PState)
  | 0, _ => none
  | n + 1, st =>
    match parseExpression n LOWEST (nextTok st) with
    | none => none
    | some (e, st1) =>
      let (ok, st2) := expectPeek .RPAREN st1
      if ok then some (e, st2) else some (none, st2)

/-- `parseIfExpression`: require an open paren, parse the condition at
LOWEST, require close paren and open brace, parse the consequence block, and
parse an alternative block when an else keyword follows (requiring its open
brace). -/
def parseIfExpression : Nat → PState → Option (Option Expr × PState)
  | 0, _ => none
  | n + 1, st =>
    let tok := currToken st
    let (ok1, st1) := expectPeek .LPAREN st
    if ¬ok1 then some (none, st1)
    else
      match parseExpression n LOWEST (nextTok st1) with
      | none => none
      | some (cond, st2) =>
        let (ok2, st3) := expectPeek .RPAREN st2
        if ¬ok2 then some (none, st3)
        else
          let (ok3, st4) := expectPeek .LBRACE st3
          if ¬ok3 then some (none, st4)
          else
            match parseBlockStatement n st4 with
            | none => none
            | some (cons, st5) =>
              if (peekToken st5).type = .ELSE then
                let (ok4, st6) := expectPeek .LBRACE (nextTok st5)
                if ¬ok4 then some (none, st6)
                else
                  match parseBlockStatement n st6 with
                  | none => none
                  | some (alt, st7) =>
                    some (some (.ifE tok cond (some cons) (some alt)), st7)
              else some (some (.ifE tok cond (some cons) none), st5)

/-- `parseBlockStatement`: capture the brace token, advance, and loop. -/
def parseBlockStatement : Nat → PState → Option (Block × PState)
  | 0, _ => none
  | n + 1, st => blockLoop n (currToken st) (nextTok st) []

/-- The loop of `parseBlockStatement`: until the current token is a closing
brace or end-of-input, parse a statement, append its (possibly absent)
result, and advance. -/
def blockLoop : Nat → Token → PState → List (Option Stmt) → Option (Block × PState)
  | 0, _, _, _ => none
  | n + 1, tok, st, acc =>
    if (currToken st).type ≠ .RBRACE ∧ (currToken st).type ≠ .EOF then
      match parseStatement n st with
      | none => none
      | some (s, st1) => blockLoop n tok (nextTok st1) (acc ++ [s])
    else some (.mk tok acc, st)

/-- `parseFunctionLiteral`: require an open paren, parse the parameter list,
require an open brace, parse the body block. -/
def parseFunctionLiteral : Nat → PState → Option (Option Expr × PState)
  | 0, _ => none
  | n + 1, st =>
    let tok := currToken st
    let (ok1, st1) := expectPeek .LPAREN st
    if ¬ok1 then some (none, st1)
    else
      match parseFunctionParams n st1 with
      | none => none
      | some (params, st2) =>
        let (ok2, st3) := expectPeek .LBRACE st2
        if ¬ok2 then some (none, st3)
        else
          match parseBlockStatement n st3 with
          | none => none
          | some (body, st4) =>
            some (some (.functionLitE tok params (some body)), st4)

/-- `parseFunctionParams`: an immediate closing paren yields the empty list;
otherwise read the first identifier and loop over commas; the closing paren
is mandatory (no list otherwise). -/
def parseFunctionParams : Nat → PState → Option (Option (List Identifier) × PState)
  | 0, _ => none
  | n + 1, st =>
    if (peekToken st).type = .RPAREN then some (some [], nextTok st)
    else
      let st1 := nextTok st
      paramsLoop n [⟨currToken st1, (currToken st1).literal⟩] st1

/-- The comma loop of `parseFunctionParams`. -/
def paramsLoop : Nat → List Identifier → PState → Option (Option (List Identifier) × PState)
  | 0, _, _ => none
  | n + 1, acc, st =>
    if (peekToken st).type = .COMMA then
      let st1 := nextTok (nextTok st)
      paramsLoop n (acc ++ [⟨currToken st1, (currToken st1).literal⟩]) st1
    else
      let (ok, st1) := expectPeek .RPAREN st
      if ok then some (some acc, st1) else some (none, st1)

/-- `parseCallExpression`: parse the argument list and build the call node —
the node is returned whether or not the argument list parse produced a
list. -/
def parseCallExpression : Nat → Option Expr → PState → Option (Option Expr × PState)
  | 0, _, _ => none
  | n + 1, fn, st =>
    let tok := currToken st
    match parseCallArgs n st with
    | none => none
    | some (args, st1) => some (some (.callE tok fn args), st1)

/-- `parseCallArgs`: an immediate closing paren yields the empty list;
otherwise parse the first argument at LOWEST and loop over commas; the
closing paren is mandatory (no list otherwise). -/
def parseCallArgs : Nat → PState → Option (Option (List (Option Expr)) × PState)
  | 0, _ => none
  | n + 1, st =>
    if (peekToken st).type = .RPAREN then some (some [], nextTok st)
    else
      match parseExpression n LOWEST (nextTok st) with
      | none => none
      | some (a, st1) => argsLoop n [a] st1

/-- The comma loop of `parseCallArgs`. -/
def argsLoop : Nat → List (Option Expr) → PState → Option (Option (List (Option Expr)) × PState)
  | 0, _, _ => none
  | n + 1, acc, st =>
    if (peekToken st).type = .COMMA then
      match parseExpression n LOWEST (nextTok (nextTok st)) with
      | none => none
      | some (a, st1) => argsLoop n (acc ++ [a]) st1
    else
      let (ok, st1) := expectPeek .RPAREN st
      if ok then some (some acc, st1) else some (none, st1)

/-- `parseLetStatement`: require an identifier then an assign token, parse
the value at LOWEST, and optionally consume a trailing semicolon. -/
def parseLetStatement : Nat → PState → Option (Option Stmt × PState)
  | 0, _ => none
  | n + 1, st =>
    let tok := currToken st
    let (ok1, st1) := expectPeek .IDENT st
    if ¬ok1 then some (none, st1)
    else
      let name : Identifier := ⟨currToken st1, (currToken st1).literal⟩
      let (ok2, st2) := expectPeek .ASSIGN st1
      if ¬ok2 then some (none, st2)
      else
        match parseExpression n LOWEST (nextTok st2) with
        | none => none
        | some (v, st3) =>
          let st4 := if (peekToken st3).type = .SEMICOLON then nextTok st3 else st3
          some (some (.letS tok name v), st4)

/-- `parseReturnStatement`: advance past the keyword, parse the return value
at LOWEST, then scan to a semicolon (the scan may never complete). -/
def parseReturnStatement : Nat → PState → Option (Option Stmt × PState)
  | 0, _ => none
  | n + 1, st =>
    let tok := currToken st
    match parseExpression n LOWEST (nextTok st) with
    | none => none
    | some (v, st1) =>
      match scanToSemi n st1 with
      | none => none
      | some st2 => some (some (.returnS tok v), st2)

/-- `parseExpressionStatement`: parse at LOWEST and optionally consume a
trailing semicolon. -/
def parseExpressionStatement : Nat → PState → Option (Option Stmt × PState)
  | 0, _ => none
  | n + 1, st =>
    let tok := currToken st
    match parseExpression n LOWEST st with
    | none => none
    | some (e, st1) =>
      let st2 := if (peekToken st1).type = .SEMICOLON then nextTok st1 else st1
      some (some (.exprS tok e), st2)

/-- `parseStatement`: dispatch on the current token kind. -/
def parseStatement : Nat → PState → Option (Option Stmt × PState)
  | 0, _ => none
  | n + 1, st =>
    match (currToken st).type with
    | .LET => parseLetStatement n st
    | .RETURN => parseReturnStatement n st
    | _ => parseExpressionStatement n st
end

/-- The loop of `ParseProg`: until the current token is end-of-input, parse a
statement, append its result to the program's statement list unconditionally
(a failed parse is appended as the absence marker), and advance. -/
def parseProgLoop : Nat → PState → List (Option Stmt) → Option (Program × PState)
  | 0, _, _ => none
  | n + 1, st, acc =>
    if (currToken st).type = .EOF then some (⟨acc⟩, st)
    else
      match parseStatement n st with
      | none => none
      | some (stmt, st1) => parseProgLoop n (nextTok st1) (acc ++ [stmt])

/-- `ParseProg` on a freshly constructed parser (`New` leaves an empty
diagnostic list and the window at the start of the stream). -/
def ParseProg (fuel : Nat) (toks : List Token) : Option (Program × PState) :=
  parseProgLoop fuel ⟨toks, 0, []⟩ []

/-- Token stream of the malformed input "let;" (a let keyword immediately
followed by a semicolon), as the lexer produces it. -/
def letSemiToks : List Token := [⟨.LET, "let"⟩, ⟨.SEMICOLON, ";"⟩, ⟨.EOF, ""⟩]

/-- Token stream of the malformed input "let 5;". -/
def letFiveToks : List Token :=
  [⟨.LET, "let"⟩, ⟨.INT, "5"⟩, ⟨.SEMICOLON, ";"⟩, ⟨.EOF, ""⟩]

/-- Token stream of the input "f(1" (a call whose argument list is never
closed). -/
def noParenToks : List Token :=
  [⟨.IDENT, "f"⟩, ⟨.LPAREN, "("⟩, ⟨.INT, "1"⟩, ⟨.EOF, ""⟩]

/-- C1 counterexample: on the malformed input "let;" the let statement's
parse fails (returns no node), yet `ParseProg` records the failure — the
first slot of `Program.Statements` is the absence marker, and the list's
length equals the number of top-level constructs attempted (two), so the
claim that a failed statement is skipped and only successfully parsed nodes
are recorded is false. -/
theorem C1_failed_statement_recorded :
    (ParseProg 50 letSemiToks).map (fun r => r.1.statements.head?) = some (some none) ∧
    (ParseProg 50 letSemiToks).map (fun r => r.1.statements.length) = some 2 :=
  ⟨rfl, rfl⟩

/-- C1 amended: `ParseProg` appends the result of every statement parse
attempt unconditionally — a failed parse is recorded as the absence marker
rather than skipped — so on "let;" the returned statement list is the
two-slot list whose first entry is the marker; diagnostics, not the
statement count, signal the failure. -/
theorem C1_parseProg_appends_every_attempt :
    (∀ (n : Nat) (st : PState) (acc : List (Option Stmt)) (stmt : Option Stmt) (st1 : PState),
        parseStatement n st = some (stmt, st1) →
        (currToken st).type ≠ .EOF →
        parseProgLoop (n + 1) st acc = parseProgLoop n (nextTok st1) (acc ++ [stmt])) ∧
    (ParseProg 50 letSemiToks).map (fun r => r.1.statements)
      = some [none, some (.exprS ⟨.SEMICOLON, ";"⟩ none)] := by
  refine ⟨fun n st acc stmt st1 h hne => ?_, rfl⟩
  simp [parseProgLoop, hne, h]

/-- C1 amended witness: the first conjunct applied to the concrete "let;"
state, whose let statement's parse fails with no node. -/
theorem C1_parseProg_appends_every_attempt_witness :
    parseProgLoop 50 ⟨letSemiToks, 0, []⟩ []
      = parseProgLoop 49
          (nextTok ⟨letSemiToks, 0, ["Unexpexted token IDENT, expected LET"]⟩)
          ([] ++ [none]) :=
  C1_parseProg_appends_every_attempt.1 49 ⟨letSemiToks, 0, []⟩ [] none
    ⟨letSemiToks, 0, ["Unexpexted token IDENT, expected LET"]⟩ rfl (by decide)

/-- C2: chained plus right-associates — parsing "1 + 2 + 3" yields a top
infix node whose left child is the integer literal one and whose right child
is the node for the sum of two and three — while every other operator parses
its right-hand side at its own precedence, so same-precedence chains of
those operators left-associate ("1 - 2 - 3" groups as (1 - 2) - 3); the
third conjunct states the asymmetric rule itself: the infix handler hands
the right-hand side parse one less than the captured precedence exactly when
the operator text is a plus sign. -/
theorem C2_plus_right_associates :
    (ParseProg 50 (tokenize "1 + 2 + 3")).map (fun r => r.1.statements) =
      some [some (.exprS ⟨.INT, "1"⟩ (some (.infixE ⟨.PLUS, "+"⟩ "+"
        (some (.integerLiteralE ⟨.INT, "1"⟩ 1))
        (some (.infixE ⟨.PLUS, "+"⟩ "+"
          (some (.integerLiteralE ⟨.INT, "2"⟩ 2))
          (some (.integerLiteralE ⟨.INT, "3"⟩ 3)))))))] ∧
    (ParseProg 50 (tokenize "1 - 2 - 3")).map (fun r => r.1.statements) =
      some [some (.exprS ⟨.INT, "1"⟩ (some (.infixE ⟨.MINUS, "-"⟩ "-"
        (some (.infixE ⟨.MINUS, "-"⟩ "-"
          (some (.integerLiteralE ⟨.INT, "1"⟩ 1))
          (some (.integerLiteralE ⟨.INT, "2"⟩ 2))))
        (some (.integerLiteralE ⟨.INT, "3"⟩ 3)))))] ∧
    (∀ (n : Nat) (left : Option Expr) (st : PState),
        parseInfixExpression (n + 1) left st =
          (parseExpression n
              (if (currToken st).literal = "+" then currPrecendence st - 1
               else currPrecendence st)
              (nextTok st)).map
            (fun r => (some (.infixE (currToken st) (currToken st).literal left r.1), r.2))) := by
  refine ⟨rfl, rfl, fun n left st => ?_⟩
  simp only [parseInfixExpression]
  cases parseExpression n
      (if (currToken st).literal = "+" then currPrecendence st - 1 else currPrecendence st)
      (nextTok st) with
  | none => rfl
  | some r => rfl

/-- Index of the first semicolon token in a list, if any. -/
def firstSemiIdx : List Token → Option Nat
  | [] => none
  | t :: rest =>
    if t.type = .SEMICOLON then some 0 else (firstSemiIdx rest).map (· + 1)

/-- Token stream of "return 5" (no terminating semicolon before
end-of-input). -/
def returnNoSemiToks : List Token := [⟨.RETURN, "return"⟩, ⟨.INT, "5"⟩, ⟨.EOF, ""⟩]

/-- Token stream of "return 5;". -/
def returnSemiToks : List Token :=
  [⟨.RETURN, "return"⟩, ⟨.INT, "5"⟩, ⟨.SEMICOLON, ";"⟩, ⟨.EOF, ""⟩]

theorem getD_eq_headD_drop (l : List Token) (i : Nat) :
    l.getD i eofToken = (l.drop i).headD eofToken := by
  induction l generalizing i with
  | nil => cases i <;> rfl
  | cons a l ih =>
    cases i with
    | zero => rfl
    | succ j => exact ih j

theorem drop_succ_of_drop_cons {l : List Token} {i : Nat} {a : Token} {rest : List Token}
    (h : l.drop i = a :: rest) : l.drop (i + 1) = rest := by
  have := List.tail_drop l i
  rw [h] at this
  simpa using this.symm

theorem scanToSemi_none_of_no_semi :
    ∀ (fuel : Nat) (st : PState),
      (∀ t ∈ st.toks.drop st.pos, ¬ t.type = TokenType.SEMICOLON) →
      scanToSemi fuel st = none := by
  intro fuel
  induction fuel with
  | zero => intro st _; rfl
  | succ n ih =>
    intro st h
    have hcur : ¬ (currToken st).type = TokenType.SEMICOLON := by
      rcases hd : st.toks.drop st.pos with _ | ⟨a, rest⟩
      · rw [currToken, getD_eq_headD_drop, hd]; decide
      · rw [currToken, getD_eq_headD_drop, hd]
        exact h a (hd ▸ List.mem_cons_self a rest)
    rw [scanToSemi, if_neg hcur]
    apply ih
    intro t ht
    rcases hd : st.toks.drop st.pos with _ | ⟨a, rest⟩
    · have : st.toks.drop (st.pos + 1) = [] := by
        have h1 := List.tail_drop st.toks st.pos
        rw [hd] at h1
        simpa using h1.symm
      rw [nextTok] at ht
      simp only [this] at ht
      cases ht
    · have h2 : st.toks.drop (st.pos + 1) = rest := drop_succ_of_drop_cons hd
      rw [nextTok] at ht
      simp only [h2] at ht
      exact h t (hd ▸ List.mem_cons_of_mem a ht)

theorem firstSemiIdx_none_no_semi :
    ∀ l : List Token, firstSemiIdx l = none →
      ∀ t ∈ l, ¬ t.type = TokenType.SEMICOLON := by
  intro l
  induction l with
  | nil => intro _ t ht; cases ht
  | cons a rest ih =>
    intro h t ht
    rw [firstSemiIdx] at h
    by_cases ha : a.type = TokenType.SEMICOLON
    · rw [if_pos ha] at h; cases h
    · rw [if_neg ha] at h
      have hrest : firstSemiIdx rest = none := by
        rcases hr : firstSemiIdx rest with _ | k
        · rfl
        · rw [hr] at h; simp at h
      rcases List.mem_cons.mp ht with rfl | hmem
      · exact ha
      · exact ih hrest t hmem

theorem scanToSemi_finds :
    ∀ (k : Nat) (st : PState),
      firstSemiIdx (st.toks.drop st.pos) = some k →
      scanToSemi (k + 1) st = some ⟨st.toks, st.pos + k, st.errors⟩ := by
  intro k
  induction k with
  | zero =>
    intro st h
    rcases hd : st.toks.drop st.pos with _ | ⟨a, rest⟩
    · rw [hd] at h; cases h
    · rw [hd, firstSemiIdx] at h
      by_cases ha : a.type = TokenType.SEMICOLON
      · have hcur : (currToken st).type = TokenType.SEMICOLON := by
          rw [currToken, getD_eq_headD_drop, hd]; exact ha
        rw [scanToSemi, if_pos hcur]
        simp
      · rw [if_neg ha] at h
        rcases hrest : firstSemiIdx rest with _ | j
        · rw [hrest] at h; cases h
        · rw [hrest] at h; simp at h
  | succ k ih =>
    intro st h
    rcases hd : st.toks.drop st.pos with _ | ⟨a, rest⟩
    · rw [hd] at h; cases h
    · rw [hd, firstSemiIdx] at h
      by_cases ha : a.type = TokenType.SEMICOLON
      · rw [if_pos ha] at h; cases h
      · rw [if_neg ha] at h
        rcases hrest : firstSemiIdx rest with _ | j
        · rw [hrest] at h; cases h
        · rw [hrest] at h
          simp at h
          have hj : j = k := by omega
          subst hj
          have hcur : ¬ (currToken st).type = TokenType.SEMICOLON := by
            rw [currToken, getD_eq_headD_drop, hd]; exact ha
          rw [scanToSemi, if_neg hcur]
          have hdrop : (nextTok st).toks.drop (nextTok st).pos = rest := by
            rw [nextTok]; exact drop_succ_of_drop_cons hd
          have := ih (nextTok st) (by rw [hdrop, hrest])
          rw [this]
          simp [nextTok]
          omega

theorem parseExpression_returnNoSemi :
    ∀ n : Nat, parseExpression (n + 2) LOWEST ⟨returnNoSemiToks, 1, []⟩ =
      some (some (.integerLiteralE ⟨.INT, "5"⟩ 5), ⟨returnNoSemiToks, 1, []⟩) :=
  fun _ => rfl

/-- C4 counterexample: on "f(1" the mandatory closing-paren check fails and a
diagnostic is recorded, but the call expression's parse does not return no
node — `parseCallExpression` still produces a call node (with the argument
list absent), so the claim that the offending construct yields no call node
is false. -/
theorem C4_call_node_survives_missing_paren :
    (ParseProg 50 noParenToks).map (fun r => (r.1.statements, Errors r.2)) =
      some ([some (.exprS ⟨.IDENT, "f"⟩ (some (.callE ⟨.LPAREN, "("⟩
        (some (.identifierE ⟨⟨.IDENT, "f"⟩, "f"⟩)) none)))],
        ["Unexpexted token ), expected INT"]) := rfl

/-- C4 amended: a failed mandatory-token check appends its diagnostic and
returns failure without advancing, and the constructs guarded by that result
return no node — except the call expression: when the argument list lacks
its closing paren the argument-list parse returns no list, yet a call node
with the absent argument list is still produced; parsing then resumes at the
next statement boundary (the "f(1" program still ends with one recorded
statement). -/
theorem C4_expectPeek_failure_behavior :
    (∀ (t : TokenType) (st : PState), (peekToken st).type ≠ t →
        expectPeek t st = (false, { st with errors := st.errors ++ [peekErrorMsg t st] })) ∧
    (∀ (n : Nat) (fn : Option Expr) (st : PState) (st1 : PState),
        parseCallArgs n st = some (none, st1) →
        parseCallExpression (n + 1) fn st
          = some (some (.callE (currToken st) fn none), st1)) ∧
    (ParseProg 50 noParenToks).map (fun r => r.1.statements.length) = some 1 := by
  refine ⟨fun t st h => ?_, fun n fn st st1 h => ?_, rfl⟩
  · simp [expectPeek, peekTokenIs, h, peekError]
  · simp [parseCallExpression, h]

/-- C4 amended witness: both hypothesized conjuncts applied to the concrete
"f(1" parse — the closing-paren check at the end of the argument of f, and
the call handler over the failed argument list. -/
theorem C4_expectPeek_failure_behavior_witness :
    expectPeek .RPAREN ⟨noParenToks, 2, []⟩
      = (false, ⟨noParenToks, 2, ["Unexpexted token ), expected INT"]⟩) ∧
    parseCallExpression 40 (some (.identifierE ⟨⟨.IDENT, "f"⟩, "f"⟩)) ⟨noParenToks, 1, []⟩
      = some (some (.callE ⟨.LPAREN, "("⟩ (some (.identifierE ⟨⟨.IDENT, "f"⟩, "f"⟩)) none),
          ⟨noParenToks, 2, ["Unexpexted token ), expected INT"]⟩) :=
  ⟨C4_expectPeek_failure_behavior.1 .RPAREN ⟨noParenToks, 2, []⟩ (by decide),
   C4_expectPeek_failure_behavior.2.1 39 (some (.identifierE ⟨⟨.IDENT, "f"⟩, "f"⟩))
     ⟨noParenToks, 1, []⟩ ⟨noParenToks, 2, ["Unexpexted token ), expected INT"]⟩ rfl⟩

/-- Unbounded digit accumulation over the same base-0 syntax as
`parseUintLoop` (identical underscore and digit-validity checks), but with
no overflow cutoffs: it computes the mathematical value of the digit
string. This is the specification-side notion of "valid integer text" and
its value. -/
def intDigitsVal (base : Nat) : List Char → Nat → Bool → Option (Nat × Bool)
  | [], n, unders => some (n, unders)
  | c :: rest, n, unders =>
    if c = '_' then intDigitsVal base rest n true
    else
      match digitVal c with
      | none => none
      | some d =>
        if d ≥ base then none else intDigitsVal base rest (n * base + d) unders

/-- The mathematical value denoted by unsigned integer text under Go's
base-0 syntax (base prefix, digits, underscore placement), with no width
restriction. -/
def intTextNat? (s : List Char) : Option Nat :=
  if s = [] then none
  else
    let (base, s1) := detectBase s
    match intDigitsVal base s1 0 false with
    | none => none
    | some (n, unders) => if unders && !underscoreOK s then none else some n

/-- The mathematical integer denoted by integer text (optional sign and an
unsigned body), with no width restriction: the specification-side meaning of
"valid integer text" and its value. -/
def intTextValue? (str : String) : Option Int :=
  match str.toList with
  | [] => none
  | c :: r =>
    let (neg, s1) : Bool × List Char :=
      if c = '+' then (false, r) else if c = '-' then (true, r) else (false, c :: r)
    match intTextNat? s1 with
    | none => none
    | some n => if neg then some (-(n : Int)) else some (n : Int)

/-- The signed 64-bit range restriction: keep a value exactly when it lies in
the closed-open interval from negative two to the sixty-third up to two to
the sixty-third. -/
def signedRange64 (v : Int) : Option Int :=
  if -(2 : Int) ^ 63 ≤ v ∧ v < 2 ^ 63 then some v else none

theorem intDigitsVal_le {base : Nat} (hb : 2 ≤ base) :
    ∀ (cs : List Char) (n : Nat) (u : Bool) (m : Nat) (u' : Bool),
      intDigitsVal base cs n u = some (m, u') → n ≤ m := by
  intro cs
  induction cs with
  | nil =>
    intro n u m u' h
    rw [intDigitsVal] at h
    cases h
    exact Nat.le_refl n
  | cons c rest ih =>
    intro n u m u' h
    rw [intDigitsVal] at h
    by_cases hc : c = '_'
    · rw [if_pos hc] at h
      exact ih n true m u' h
    · rw [if_neg hc] at h
      rcases hd : digitVal c with _ | d
      · simp only [hd] at h
        exact Option.noConfusion h
      · simp only [hd] at h
        by_cases hdb : d ≥ base
        · rw [if_pos hdb] at h; cases h
        · rw [if_neg hdb] at h
          have h1 := ih (n * base + d) u m u' h
          have h2 : n ≤ n * base := Nat.le_mul_of_pos_right n (by omega)
          omega

theorem parseUintLoop_eq_intDigitsVal {base : Nat} (hb : 2 ≤ base) :
    ∀ (cs : List Char) (n : Nat) (u : Bool), n ≤ maxValU64 →
      parseUintLoop base (maxValU64 / base + 1) maxValU64 cs n u =
        (match intDigitsVal base cs n u with
         | none => none
         | some (m, u') => if maxValU64 < m then none else some (m, u')) := by
  intro cs
  induction cs with
  | nil =>
    intro n u hn
    rw [parseUintLoop, intDigitsVal]
    simp [Nat.not_lt.mpr hn]
  | cons c rest ih =>
    intro n u hn
    rw [parseUintLoop, intDigitsVal]
    by_cases hc : c = '_'
    · rw [if_pos hc, if_pos hc]
      exact ih n true hn
    · rw [if_neg hc, if_neg hc]
      rcases hd : digitVal c with _ | d
      · simp only [hd]
      · simp only [hd]
        by_cases hdb : d ≥ base
        · simp only [if_pos hdb]
        · simp only [if_neg hdb]
          have hmul : maxValU64 < (maxValU64 / base + 1) * base := by
            have h1 := Nat.div_add_mod maxValU64 base
            have h2 : maxValU64 % base < base := Nat.mod_lt _ (by omega)
            have h3 : (maxValU64 / base + 1) * base = maxValU64 / base * base + base :=
              Nat.succ_mul _ _
            have h4 : maxValU64 / base * base = base * (maxValU64 / base) :=
              Nat.mul_comm _ _
            omega
          by_cases hcut : n ≥ maxValU64 / base + 1
          · simp only [if_pos hcut]
            have hnb : maxValU64 < n * base := by
              have := Nat.mul_le_mul_right base hcut
              omega
            rcases hrec : intDigitsVal base rest (n * base + d) u with _ | ⟨m, u'⟩
            · simp only [hrec]
            · have hm := intDigitsVal_le hb rest (n * base + d) u m u' hrec
              simp only [hrec, if_pos (show maxValU64 < m by omega)]
          · simp only [if_neg hcut]
            by_cases hov : n * base + d > maxValU64
            · simp only [if_pos hov]
              rcases hrec : intDigitsVal base rest (n * base + d) u with _ | ⟨m, u'⟩
              · simp only [hrec]
              · have hm := intDigitsVal_le hb rest (n * base + d) u m u' hrec
                simp only [hrec, if_pos (show maxValU64 < m by omega)]
            · simp only [if_neg hov]
              exact ih (n * base + d) u (by omega)

theorem detectBase_ge_two : ∀ s : List Char, 2 ≤ (detectBase s).1 := by
  intro s
  unfold detectBase
  split
  · split
    · split
      · norm_num
      · split
        · norm_num
        · split
          · norm_num
          · norm_num
    · norm_num
  · norm_num

theorem parseUint0_eq_intTextNat (s : List Char) :
    parseUint0 s = (intTextNat? s).bind
      (fun m => if maxValU64 < m then none else some m) := by
  rw [parseUint0, intTextNat?]
  by_cases hs : s = []
  · rw [if_pos hs, if_pos hs]; rfl
  · rw [if_neg hs, if_neg hs]
    have hb : 2 ≤ (detectBase s).1 := detectBase_ge_two s
    rcases hdb : detectBase s with ⟨base, s1⟩
    rw [hdb] at hb
    simp only
    rw [parseUintLoop_eq_intDigitsVal hb s1 0 false (Nat.zero_le _)]
    rcases hrec : intDigitsVal base s1 0 false with _ | ⟨m, u⟩
    · rfl
    · by_cases hov : maxValU64 < m
      · simp only [if_pos hov]
        by_cases hu : (u && !underscoreOK s) = true
        · simp only [if_pos hu]; rfl
        · simp only [if_neg hu, Option.some_bind, if_pos hov]
      · simp only [if_neg hov]
        by_cases hu : (u && !underscoreOK s) = true
        · simp only [if_pos hu]; rfl
        · simp only [if_neg hu, Option.some_bind, if_neg hov]

theorem goParseInt_eq_intTextValue (str : String) :
    goParseInt str = (intTextValue? str).bind signedRange64 := by
  have hp63 : (2 : Int) ^ 63 = 9223372036854775808 := by norm_num
  have hn63 : (2 : Nat) ^ 63 = 9223372036854775808 := by norm_num
  have hmax : maxValU64 = 18446744073709551615 := by norm_num [maxValU64]
  rw [goParseInt, intTextValue?]
  rcases hl : str.toList with _ | ⟨c, r⟩
  · rfl
  · simp only
    rcases hneg : (if c = '+' then (false, r)
      else if c = '-' then (true, r) else (false, c :: r)) with ⟨neg, s1⟩
    simp only
    rw [parseUint0_eq_intTextNat]
    rcases hnn : intTextNat? s1 with _ | nn
    · rfl
    · cases neg with
      | false =>
        simp only [Option.some_bind]
        simp only [if_neg Bool.false_ne_true]
        rw [Option.some_bind]
        by_cases hov : maxValU64 < nn
        · have hovp : 18446744073709551615 < nn := by rw [hmax] at hov; exact hov
          rw [if_pos hov, signedRange64, if_neg (by rw [hp63]; omega)]
        · have hovp : nn ≤ 18446744073709551615 := by rw [hmax] at hov; omega
          rw [if_neg hov]
          simp only [Bool.not_false, Bool.true_and, Bool.false_and,
            if_neg Bool.false_ne_true]
          by_cases hge : nn ≥ 2 ^ 63
          · have hgep : 9223372036854775808 ≤ nn := by rw [hn63] at hge; exact hge
            rw [if_pos (decide_eq_true hge), signedRange64,
              if_neg (by rw [hp63]; omega)]
          · have hgep : nn < 9223372036854775808 := by rw [hn63] at hge; omega
            rw [if_neg (by rw [decide_eq_false hge]; exact Bool.false_ne_true),
              signedRange64, if_pos (by rw [hp63]; omega)]
      | true =>
        simp only [Option.some_bind]
        simp only [eq_self_iff_true, if_true]
        rw [Option.some_bind]
        by_cases hov : maxValU64 < nn
        · have hovp : 18446744073709551615 < nn := by rw [hmax] at hov; exact hov
          rw [if_pos hov, signedRange64, if_neg (by rw [hp63]; omega)]
        · have hovp : nn ≤ 18446744073709551615 := by rw [hmax] at hov; omega
          rw [if_neg hov]
          simp only [Bool.not_true, Bool.false_and, Bool.true_and,
            if_neg Bool.false_ne_true, eq_self_iff_true, if_true]
          by_cases hgt : nn > 2 ^ 63
          · have hgtp : 9223372036854775808 < nn := by rw [hn63] at hgt; exact hgt
            rw [if_pos (decide_eq_true hgt), signedRange64,
              if_neg (by rw [hp63]; omega)]
          · have hgtp : nn ≤ 9223372036854775808 := by rw [hn63] at hgt; omega
            rw [if_neg (by rw [decide_eq_false hgt]; exact Bool.false_ne_true),
              signedRange64, if_pos (by rw [hp63]; omega)]

/-- C5: the integer-literal prefix handler returns an IntegerLiteral node
holding the value of the current token's literal text exactly when that text
is valid integer text whose value fits the signed 64-bit range; otherwise —
invalid text or a value outside the range — it appends the
cannot-parse-as-integer diagnostic and returns no node, leaving the rest of
the state unchanged. -/
theorem C5_parseIntegerLiteral_spec (st : PState) :
    match intTextValue? (currToken st).literal with
    | some v =>
      if -(2 : Int) ^ 63 ≤ v ∧ v < 2 ^ 63 then
        parseIntegerLiteral st = (some (.integerLiteralE (currToken st) v), st)
      else
        parseIntegerLiteral st
          = (none, { st with errors := st.errors ++ [intErrMsg (currToken st).literal] })
    | none =>
      parseIntegerLiteral st
        = (none, { st with errors := st.errors ++ [intErrMsg (currToken st).literal] }) := by
  rcases hv : intTextValue? (currToken st).literal with _ | v
  · have hg : goParseInt (currToken st).literal = none := by
      rw [goParseInt_eq_intTextValue, hv]; rfl
    simp only [parseIntegerLiteral, hg]
  · by_cases hr : -(2 : Int) ^ 63 ≤ v ∧ v < 2 ^ 63
    · simp only [if_pos hr]
      have hg : goParseInt (currToken st).literal = some v := by
        rw [goParseInt_eq_intTextValue, hv, Option.some_bind, signedRange64, if_pos hr]
      simp only [parseIntegerLiteral, hg]
    · simp only [if_neg hr]
      have hg : goParseInt (currToken st).literal = none := by
        rw [goParseInt_eq_intTextValue, hv, Option.some_bind, signedRange64, if_neg hr]
      simp only [parseIntegerLiteral, hg]

/-- C6: the diagnostic a failed mandatory-token check records does not have
the form "expected token kind X, found Y" — on "let 5;" the identifier check
fails with the peek token 5 of kind INT, and the recorded diagnostic is
"Unexpexted token IDENT, expected LET": the required kind IDENT is printed
after "Unexpexted token", the slot after "expected" holds the parser's
current token kind LET, and the kind INT actually found at the failing
position is never named. -/
theorem C6_peekError_message_shape :
    (ParseProg 50 letFiveToks).map (fun r => Errors r.2)
      = some ["Unexpexted token IDENT, expected LET"] ∧
    peekErrorMsg .IDENT ⟨letFiveToks, 0, []⟩
      = "Unexpexted token IDENT, expected LET" :=
  ⟨rfl, rfl⟩

/-- C7: parsing "1 * 2 + 3" yields the tree ((1 * 2) + 3) — the top infix
node has the plus operator, its left child is the product node of one and
two, its right child is the integer literal three — and the PRODUCT
precedence strictly exceeds the SUM precedence. -/
theorem C7_product_binds_tighter_than_sum :
    (ParseProg 50 (tokenize "1 * 2 + 3")).map (fun r => r.1.statements) =
      some [some (.exprS ⟨.INT, "1"⟩ (some (.infixE ⟨.PLUS, "+"⟩ "+"
        (some (.infixE ⟨.ASTERISK, "*"⟩ "*"
          (some (.integerLiteralE ⟨.INT, "1"⟩ 1))
          (some (.integerLiteralE ⟨.INT, "2"⟩ 2))))
        (some (.integerLiteralE ⟨.INT, "3"⟩ 3)))))] ∧
    SUM < PRODUCT :=
  ⟨rfl, by decide⟩

/-- C8: parsing "let x = 5;" yields a program with exactly one let
statement, whose name is the identifier x and whose value is the integer
literal five, and the canonical rendering of that statement reproduces
exactly the text "let x = 5;". -/
theorem C8_let_round_trip :
    (ParseProg 50 (tokenize "let x = 5;")).map (fun r => r.1.statements) =
      some [some (.letS ⟨.LET, "let"⟩ ⟨⟨.IDENT, "x"⟩, "x"⟩
        (some (.integerLiteralE ⟨.INT, "5"⟩ 5)))] ∧
    stringStmt (.letS ⟨.LET, "let"⟩ ⟨⟨.IDENT, "x"⟩, "x"⟩
        (some (.integerLiteralE ⟨.INT, "5"⟩ 5))) = "let x = 5;" :=
  ⟨rfl, by decide⟩

/-- C9: statement rendering is total in the presence of absent expression
children — an expression statement with the absence marker renders as the
empty string, and let and return statements with an absent value still
render their keyword, name, equals sign and trailing semicolon, omitting
only the value text. -/
theorem C9_rendering_total_on_absent_children :
    (∀ t : Token, stringStmt (.exprS t none) = "") ∧
    (∀ (t : Token) (n : Identifier),
        stringStmt (.letS t n none) = t.literal ++ " " ++ n.value ++ " = " ++ ";") ∧
    (∀ t : Token, stringStmt (.returnS t none) = t.literal ++ " " ++ ";") := by
  refine ⟨fun t => rfl, fun t n => ?_, fun t => ?_⟩
  · simp [stringStmt, stringExprOpt, String.append_empty]
  · simp [stringStmt, stringExprOpt, String.append_empty]

/-- Diagnostics extension: the second state's diagnostic list is the first
state's list with zero or more entries appended at its end. -/
def errsExtend (st st1 : PState) : Prop := ∃ tail, st1.errors = st.errors ++ tail

theorem errsExtend_refl (st : PState) : errsExtend st st := ⟨[], by simp⟩

theorem errsExtend_of_eq {st st1 : PState} (h : st1.errors = st.errors) :
    errsExtend st st1 := ⟨[], by simp [h]⟩

theorem errsExtend_trans {a b c : PState} (h1 : errsExtend a b) (h2 : errsExtend b c) :
    errsExtend a c := by
  obtain ⟨t1, e1⟩ := h1
  obtain ⟨t2, e2⟩ := h2
  exact ⟨t1 ++ t2, by rw [e2, e1, List.append_assoc]⟩

theorem errsExtend_nextTok (st : PState) : errsExtend st (nextTok st) :=
  errsExtend_of_eq rfl

theorem errsExtend_peekError (t : TokenType) (st : PState) :
    errsExtend st (peekError t st) := ⟨[peekErrorMsg t st], rfl⟩

theorem errsExtend_noPrefixParseFnError (t : TokenType) (st : PState) :
    errsExtend st (noPrefixParseFnError t st) := ⟨[noPrefixMsg t], rfl⟩

theorem errsExtend_expectPeek (t : TokenType) (st : PState) :
    errsExtend st (expectPeek t st).2 := by
  rw [expectPeek]
  by_cases h : peekTokenIs t st
  · rw [if_pos h]; exact errsExtend_nextTok st
  · rw [if_neg h]; exact errsExtend_peekError t st

theorem errsExtend_expectPeek_eq {t : TokenType} {st : PState} {ok : Bool} {st1 : PState}
    (h : expectPeek t st = (ok, st1)) : errsExtend st st1 := by
  have h1 := errsExtend_expectPeek t st
  rw [h] at h1
  exact h1

theorem errsExtend_parseIntegerLiteral (st : PState) :
    errsExtend st (parseIntegerLiteral st).2 := by
  rw [parseIntegerLiteral]
  rcases goParseInt (currToken st).literal with _ | v
  · exact ⟨[intErrMsg (currToken st).literal], rfl⟩
  · exact errsExtend_refl st

theorem scanToSemi_errors :
    ∀ (n : Nat) (st st1 : PState), scanToSemi n st = some st1 →
      st1.errors = st.errors := by
  intro n
  induction n with
  | zero => intro st st1 h; exact Option.noConfusion h
  | succ k ih =>
    intro st st1 h
    rw [scanToSemi] at h
    by_cases hc : (currToken st).type = TokenType.SEMICOLON
    · rw [if_pos hc] at h; cases h; rfl
    · rw [if_neg hc] at h
      exact ih (nextTok st) st1 h

theorem parser_errsExtend : ∀ n : Nat,
    (∀ prec st r, parseExpression n prec st = some r → errsExtend st r.2) ∧
    (∀ prec left st r, parseExprLoop n prec left st = some r → errsExtend st r.2) ∧
    (∀ pf st r, runPrefixFn n pf st = some r → errsExtend st r.2) ∧
    (∀ f left st r, runInfixFn n f left st = some r → errsExtend st r.2) ∧
    (∀ st r, parsePrefixExpression n st = some r → errsExtend st r.2) ∧
    (∀ left st r, parseInfixExpression n left st = some r → errsExtend st r.2) ∧
    (∀ st r, parseGroupedExpression n st = some r → errsExtend st r.2) ∧
    (∀ st r, parseIfExpression n st = some r → errsExtend st r.2) ∧
    (∀ st r, parseBlockStatement n st = some r → errsExtend st r.2) ∧
    (∀ tok st acc r, blockLoop n tok st acc = some r → errsExtend st r.2) ∧
    (∀ st r, parseFunctionLiteral n st = some r → errsExtend st r.2) ∧
    (∀ st r, parseFunctionParams n st = some r → errsExtend st r.2) ∧
    (∀ acc st r, paramsLoop n acc st = some r → errsExtend st r.2) ∧
    (∀ left st r, parseCallExpression n left st = some r → errsExtend st r.2) ∧
    (∀ st r, parseCallArgs n st = some r → errsExtend st r.2) ∧
    (∀ acc st r, argsLoop n acc st = some r → errsExtend st r.2) ∧
    (∀ st r, parseLetStatement n st = some r → errsExtend st r.2) ∧
    (∀ st r, parseReturnStatement n st = some r → errsExtend st r.2) ∧
    (∀ st r, parseExpressionStatement n st = some r → errsExtend st r.2) ∧
    (∀ st r, parseStatement n st = some r → errsExtend st r.2) := by
  intro n
  induction n with
  | zero =>
    exact ⟨fun _ _ _ h => Option.noConfusion h, fun _ _ _ _ h => Option.noConfusion h,
      fun _ _ _ h => Option.noConfusion h, fun _ _ _ _ h => Option.noConfusion h,
      fun _ _ h => Option.noConfusion h, fun _ _ _ h => Option.noConfusion h,
      fun _ _ h => Option.noConfusion h, fun _ _ h => Option.noConfusion h,
      fun _ _ h => Option.noConfusion h, fun _ _ _ _ h => Option.noConfusion h,
      fun _ _ h => Option.noConfusion h, fun _ _ h => Option.noConfusion h,
      fun _ _ _ h => Option.noConfusion h, fun _ _ _ h => Option.noConfusion h,
      fun _ _ h => Option.noConfusion h, fun _ _ _ h => Option.noConfusion h,
      fun _ _ h => Option.noConfusion h, fun _ _ h => Option.noConfusion h,
      fun _ _ h => Option.noConfusion h, fun _ _ h => Option.noConfusion h⟩
  | succ n ih =>
    obtain ⟨ihPE, ihLoop, ihRunP, ihRunI, ihPre, ihInf, ihGrp, ihIf, ihBlk, ihBlkL,
      ihFn, ihPar, ihParL, ihCall, ihArgs, ihArgsL, ihLet, ihRet, ihExS, ihStmt⟩ := ih
    refine ⟨?_, ?_, ?_, ?_, ?_, ?_, ?_, ?_, ?_, ?_, ?_, ?_, ?_, ?_, ?_, ?_, ?_, ?_, ?_, ?_⟩
    · -- parseExpression
      intro prec st r h
      rw [parseExpression] at h
      rcases hpf : prefixParseFns (currToken st).type with _ | pf
      · simp only [hpf] at h
        cases h
        exact errsExtend_noPrefixParseFnError _ st
      · simp only [hpf] at h
        rcases hrun : runPrefixFn n pf st with _ | ⟨left, st1⟩
        · simp only [hrun] at h; exact Option.noConfusion h
        · simp only [hrun] at h
          exact errsExtend_trans (ihRunP pf st (left, st1) hrun) (ihLoop prec left st1 r h)
    · -- parseExprLoop
      intro prec left st r h
      rw [parseExprLoop] at h
      by_cases hc : (peekToken st).type ≠ TokenType.SEMICOLON ∧ prec < peekPrecedence st
      · rw [if_pos hc] at h
        rcases hif : infixParseFns (peekToken st).type with _ | f
        · simp only [hif] at h
          cases h
          exact errsExtend_refl st
        · simp only [hif] at h
          rcases hrun : runInfixFn n f left (nextTok st) with _ | ⟨left1, st1⟩
          · simp only [hrun] at h; exact Option.noConfusion h
          · simp only [hrun] at h
            exact errsExtend_trans
              (errsExtend_trans (errsExtend_nextTok st)
                (ihRunI f left (nextTok st) (left1, st1) hrun))
              (ihLoop prec left1 st1 r h)
      · rw [if_neg hc] at h
        cases h
        exact errsExtend_refl st
    · -- runPrefixFn
      intro pf st r h
      cases pf with
      | pIdent => rw [runPrefixFn] at h; cases h; exact errsExtend_refl st
      | pIntLit => rw [runPrefixFn] at h; cases h; exact errsExtend_parseIntegerLiteral st
      | pPrefixExpr => rw [runPrefixFn] at h; exact ihPre st r h
      | pBool => rw [runPrefixFn] at h; cases h; exact errsExtend_refl st
      | pGrouped => rw [runPrefixFn] at h; exact ihGrp st r h
      | pIf => rw [runPrefixFn] at h; exact ihIf st r h
      | pFunctionLit => rw [runPrefixFn] at h; exact ihFn st r h
    · -- runInfixFn
      intro f left st r h
      cases f with
      | iInfixExpr => rw [runInfixFn] at h; exact ihInf left st r h
      | iCall => rw [runInfixFn] at h; exact ihCall left st r h
    · -- parsePrefixExpression
      intro st r h
      simp only [parsePrefixExpression] at h
      rcases hpe : parseExpression n PREFIX (nextTok st) with _ | ⟨right, st1⟩
      · simp only [hpe] at h; exact Option.noConfusion h
      · simp only [hpe] at h
        cases h
        exact errsExtend_trans (errsExtend_nextTok st)
          (ihPE PREFIX (nextTok st) (right, st1) hpe)
    · -- parseInfixExpression
      intro left st r h
      simp only [parseInfixExpression] at h
      rcases hpe : parseExpression n
          (if (currToken st).literal = "+" then currPrecendence st - 1
           else currPrecendence st) (nextTok st) with _ | ⟨right, st1⟩
      · simp only [hpe] at h; exact Option.noConfusion h
      · simp only [hpe] at h
        cases h
        exact errsExtend_trans (errsExtend_nextTok st) (ihPE _ (nextTok st) (right, st1) hpe)
    · -- parseGroupedExpression
      intro st r h
      simp only [parseGroupedExpression] at h
      rcases hpe : parseExpression n LOWEST (nextTok st) with _ | ⟨e, st1⟩
      · simp only [hpe] at h; exact Option.noConfusion h
      · simp only [hpe] at h
        rcases hep : expectPeek TokenType.RPAREN st1 with ⟨ok, st2⟩
        simp only [hep] at h
        have hx : errsExtend st st2 :=
          errsExtend_trans
            (errsExtend_trans (errsExtend_nextTok st) (ihPE LOWEST (nextTok st) (e, st1) hpe))
            (errsExtend_expectPeek_eq hep)
        cases ok with
        | false => rw [if_neg (by simp)] at h; cases h; exact hx
        | true => rw [if_pos (by simp)] at h; cases h; exact hx
    · -- parseIfExpression
      intro st r h
      simp only [parseIfExpression] at h
      rcases hep1 : expectPeek TokenType.LPAREN st with ⟨ok1, st1⟩
      simp only [hep1] at h
      have he1 : errsExtend st st1 := errsExtend_expectPeek_eq hep1
      cases ok1 with
      | false =>
        rw [if_pos (by simp)] at h
        cases h
        exact he1
      | true =>
        rw [if_neg (by simp)] at h
        rcases hpe : parseExpression n LOWEST (nextTok st1) with _ | ⟨cond, st2⟩
        · simp only [hpe] at h; exact Option.noConfusion h
        · simp only [hpe] at h
          have he2 : errsExtend st st2 :=
            errsExtend_trans he1 (errsExtend_trans (errsExtend_nextTok st1)
              (ihPE LOWEST (nextTok st1) (cond, st2) hpe))
          rcases hep2 : expectPeek TokenType.RPAREN st2 with ⟨ok2, st3⟩
          simp only [hep2] at h
          have he3 : errsExtend st st3 := errsExtend_trans he2 (errsExtend_expectPeek_eq hep2)
          cases ok2 with
          | false => rw [if_pos (by simp)] at h; cases h; exact he3
          | true =>
            rw [if_neg (by simp)] at h
            rcases hep3 : expectPeek TokenType.LBRACE st3 with ⟨ok3, st4⟩
            simp only [hep3] at h
            have he4 : errsExtend st st4 :=
              errsExtend_trans he3 (errsExtend_expectPeek_eq hep3)
            cases ok3 with
            | false => rw [if_pos (by simp)] at h; cases h; exact he4
            | true =>
              rw [if_neg (by simp)] at h
              rcases hbk : parseBlockStatement n st4 with _ | ⟨cons, st5⟩
              · simp only [hbk] at h; exact Option.noConfusion h
              · simp only [hbk] at h
                have he5 : errsExtend st st5 :=
                  errsExtend_trans he4 (ihBlk st4 (cons, st5) hbk)
                by_cases hel : (peekToken st5).type = TokenType.ELSE
                · rw [if_pos hel] at h
                  rcases hep4 : expectPeek TokenType.LBRACE (nextTok st5) with ⟨ok4, st6⟩
                  simp only [hep4] at h
                  have he6 : errsExtend st st6 :=
                    errsExtend_trans he5 (errsExtend_trans (errsExtend_nextTok st5)
                      (errsExtend_expectPeek_eq hep4))
                  cases ok4 with
                  | false => rw [if_pos (by simp)] at h; cases h; exact he6
                  | true =>
                    rw [if_neg (by simp)] at h
                    rcases hbk2 : parseBlockStatement n st6 with _ | ⟨alt, st7⟩
                    · simp only [hbk2] at h; exact Option.noConfusion h
                    · simp only [hbk2] at h
                      cases h
                      exact errsExtend_trans he6 (ihBlk st6 (alt, st7) hbk2)
                · rw [if_neg hel] at h
                  cases h
                  exact he5
    · -- parseBlockStatement
      intro st r h
      rw [parseBlockStatement] at h
      exact errsExtend_trans (errsExtend_nextTok st)
        (ihBlkL (currToken st) (nextTok st) [] r h)
    · -- blockLoop
      intro tok st acc r h
      rw [blockLoop] at h
      by_cases hc : (currToken st).type ≠ TokenType.RBRACE ∧
          (currToken st).type ≠ TokenType.EOF
      · rw [if_pos hc] at h
        rcases hst : parseStatement n st with _ | ⟨s, st1⟩
        · simp only [hst] at h; exact Option.noConfusion h
        · simp only [hst] at h
          exact errsExtend_trans
            (errsExtend_trans (ihStmt st (s, st1) hst) (errsExtend_nextTok st1))
            (ihBlkL tok (nextTok st1) (acc ++ [s]) r h)
      · rw [if_neg hc] at h
        cases h
        exact errsExtend_refl st
    · -- parseFunctionLiteral
      intro st r h
      simp only [parseFunctionLiteral] at h
      rcases hep1 : expectPeek TokenType.LPAREN st with ⟨ok1, st1⟩
      simp only [hep1] at h
      have he1 : errsExtend st st1 := errsExtend_expectPeek_eq hep1
      cases ok1 with
      | false => rw [if_pos (by simp)] at h; cases h; exact he1
      | true =>
        rw [if_neg (by simp)] at h
        rcases hps : parseFunctionParams n st1 with _ | ⟨params, st2⟩
        · simp only [hps] at h; exact Option.noConfusion h
        · simp only [hps] at h
          have he2 : errsExtend st st2 := errsExtend_trans he1 (ihPar st1 (params, st2) hps)
          rcases hep2 : expectPeek TokenType.LBRACE st2 with ⟨ok2, st3⟩
          simp only [hep2] at h
          have he3 : errsExtend st st3 := errsExtend_trans he2 (errsExtend_expectPeek_eq hep2)
          cases ok2 with
          | false => rw [if_pos (by simp)] at h; cases h; exact he3
          | true =>
            rw [if_neg (by simp)] at h
            rcases hbk : parseBlockStatement n st3 with _ | ⟨body, st4⟩
            · simp only [hbk] at h; exact Option.noConfusion h
            · simp only [hbk] at h
              cases h
              exact errsExtend_trans he3 (ihBlk st3 (body, st4) hbk)
    · -- parseFunctionParams
      intro st r h
      rw [parseFunctionParams] at h
      by_cases hc : (peekToken st).type = TokenType.RPAREN
      · rw [if_pos hc] at h
        cases h
        exact errsExtend_nextTok st
      · rw [if_neg hc] at h
        exact errsExtend_trans (errsExtend_nextTok st) (ihParL _ (nextTok st) r h)
    · -- paramsLoop
      intro acc st r h
      rw [paramsLoop] at h
      by_cases hc : (peekToken st).type = TokenType.COMMA
      · rw [if_pos hc] at h
        exact errsExtend_trans
          (errsExtend_trans (errsExtend_nextTok st) (errsExtend_nextTok (nextTok st)))
          (ihParL _ (nextTok (nextTok st)) r h)
      · rw [if_neg hc] at h
        rcases hep : expectPeek TokenType.RPAREN st with ⟨ok, st1⟩
        simp only [hep] at h
        have hx : errsExtend st st1 := errsExtend_expectPeek_eq hep
        cases ok with
        | false => rw [if_neg (by simp)] at h; cases h; exact hx
        | true => rw [if_pos (by simp)] at h; cases h; exact hx
    · -- parseCallExpression
      intro left st r h
      simp only [parseCallExpression] at h
      rcases hca : parseCallArgs n st with _ | ⟨args, st1⟩
      · simp only [hca] at h; exact Option.noConfusion h
      · simp only [hca] at h
        cases h
        exact ihArgs st (args, st1) hca
    · -- parseCallArgs
      intro st r h
      rw [parseCallArgs] at h
      by_cases hc : (peekToken st).type = TokenType.RPAREN
      · rw [if_pos hc] at h
        cases h
        exact errsExtend_nextTok st
      · rw [if_neg hc] at h
        rcases hpe : parseExpression n LOWEST (nextTok st) with _ | ⟨a, st1⟩
        · simp only [hpe] at h; exact Option.noConfusion h
        · simp only [hpe] at h
          exact errsExtend_trans
            (errsExtend_trans (errsExtend_nextTok st)
              (ihPE LOWEST (nextTok st) (a, st1) hpe))
            (ihArgsL _ st1 r h)
    · -- argsLoop
      intro acc st r h
      rw [argsLoop] at h
      by_cases hc : (peekToken st).type = TokenType.COMMA
      · rw [if_pos hc] at h
        rcases hpe : parseExpression n LOWEST (nextTok (nextTok st)) with _ | ⟨a, st1⟩
        · simp only [hpe] at h; exact Option.noConfusion h
        · simp only [hpe] at h
          exact errsExtend_trans
            (errsExtend_trans
              (errsExtend_trans (errsExtend_nextTok st) (errsExtend_nextTok (nextTok st)))
              (ihPE LOWEST (nextTok (nextTok st)) (a, st1) hpe))
            (ihArgsL _ st1 r h)
      · rw [if_neg hc] at h
        rcases hep : expectPeek TokenType.RPAREN st with ⟨ok, st1⟩
        simp only [hep] at h
        have hx : errsExtend st st1 := errsExtend_expectPeek_eq hep
        cases ok with
        | false => rw [if_neg (by simp)] at h; cases h; exact hx
        | true => rw [if_pos (by simp)] at h; cases h; exact hx
    · -- parseLetStatement
      intro st r h
      simp only [parseLetStatement] at h
      rcases hep1 : expectPeek TokenType.IDENT st with ⟨ok1, st1⟩
      simp only [hep1] at h
      have he1 : errsExtend st st1 := errsExtend_expectPeek_eq hep1
      cases ok1 with
      | false => rw [if_pos (by simp)] at h; cases h; exact he1
      | true =>
        rw [if_neg (by simp)] at h
        rcases hep2 : expectPeek TokenType.ASSIGN st1 with ⟨ok2, st2⟩
        simp only [hep2] at h
        have he2 : errsExtend st st2 := errsExtend_trans he1 (errsExtend_expectPeek_eq hep2)
        cases ok2 with
        | false => rw [if_pos (by simp)] at h; cases h; exact he2
        | true =>
          rw [if_neg (by simp)] at h
          rcases hpe : parseExpression n LOWEST (nextTok st2) with _ | ⟨v, st3⟩
          · simp only [hpe] at h; exact Option.noConfusion h
          · simp only [hpe] at h
            cases h
            have he3 : errsExtend st st3 :=
              errsExtend_trans he2 (errsExtend_trans (errsExtend_nextTok st2)
                (ihPE LOWEST (nextTok st2) (v, st3) hpe))
            by_cases hs : (peekToken st3).type = TokenType.SEMICOLON
            · rw [if_pos hs]
              exact errsExtend_trans he3 (errsExtend_nextTok st3)
            · rw [if_neg hs]
              exact he3
    · -- parseReturnStatement
      intro st r h
      simp only [parseReturnStatement] at h
      rcases hpe : parseExpression n LOWEST (nextTok st) with _ | ⟨v, st1⟩
      · simp only [hpe] at h; exact Option.noConfusion h
      · simp only [hpe] at h
        rcases hsc : scanToSemi n st1 with _ | st2
        · simp only [hsc] at h; exact Option.noConfusion h
        · simp only [hsc] at h
          cases h
          exact errsExtend_trans
            (errsExtend_trans (errsExtend_nextTok st)
              (ihPE LOWEST (nextTok st) (v, st1) hpe))
            (errsExtend_of_eq (scanToSemi_errors n st1 st2 hsc))
    · -- parseExpressionStatement
      intro st r h
      simp only [parseExpressionStatement] at h
      rcases hpe : parseExpression n LOWEST st with _ | ⟨e, st1⟩
      · simp only [hpe] at h; exact Option.noConfusion h
      · simp only [hpe] at h
        cases h
        have he1 : errsExtend st st1 := ihPE LOWEST st (e, st1) hpe
        by_cases hs : (peekToken st1).type = TokenType.SEMICOLON
        · rw [if_pos hs]
          exact errsExtend_trans he1 (errsExtend_nextTok st1)
        · rw [if_neg hs]
          exact he1
    · -- parseStatement
      intro st r h
      rw [parseStatement] at h
      rcases hty : (currToken st).type
      case LET => exact ihLet st r (by rw [hty] at h; exact h)
      case RETURN => exact ihRet st r (by rw [hty] at h; exact h)
      all_goals exact ihExS st r (by rw [hty] at h; exact h)

theorem parseProgLoop_errsExtend :
    ∀ (fuel : Nat) (st : PState) (acc : List (Option Stmt)) (r : Program × PState),
      parseProgLoop fuel st acc = some r → errsExtend st r.2 := by
  intro fuel
  induction fuel with
  | zero => intro st acc r h; exact Option.noConfusion h
  | succ n ih =>
    intro st acc r h
    rw [parseProgLoop] at h
    by_cases hc : (currToken st).type = TokenType.EOF
    · rw [if_pos hc] at h
      cases h
      exact errsExtend_refl st
    · rw [if_neg hc] at h
      rcases hst : parseStatement n st with _ | ⟨stmt, st1⟩
      · simp only [hst] at h; exact Option.noConfusion h
      · simp only [hst] at h
        exact errsExtend_trans
          (errsExtend_trans ((parser_errsExtend n).2.2.2.2.2.2.2.2.2.2.2.2.2.2.2.2.2.2.2
            st (stmt, st1) hst) (errsExtend_nextTok st1))
          (ih (nextTok st1) (acc ++ [stmt]) r h)

theorem scanToSemi_fuelStep :
    ∀ (n : Nat) (st st1 : PState), scanToSemi n st = some st1 →
      scanToSemi (n + 1) st = some st1 := by
  intro n
  induction n with
  | zero => intro st st1 h; exact Option.noConfusion h
  | succ k ih =>
    intro st st1 h
    rw [scanToSemi] at h ⊢
    by_cases hc : (currToken st).type = TokenType.SEMICOLON
    · rw [if_pos hc] at h ⊢; exact h
    · rw [if_neg hc] at h ⊢
      exact ih (nextTok st) st1 h

theorem parser_fuelStep : ∀ n : Nat,
    (∀ prec st r, parseExpression n prec st = some r →
        parseExpression (n + 1) prec st = some r) ∧
    (∀ prec left st r, parseExprLoop n prec left st = some r →
        parseExprLoop (n + 1) prec left st = some r) ∧
    (∀ pf st r, runPrefixFn n pf st = some r → runPrefixFn (n + 1) pf st = some r) ∧
    (∀ f left st r, runInfixFn n f left st = some r →
        runInfixFn (n + 1) f left st = some r) ∧
    (∀ st r, parsePrefixExpression n st = some r →
        parsePrefixExpression (n + 1) st = some r) ∧
    (∀ left st r, parseInfixExpression n left st = some r →
        parseInfixExpression (n + 1) left st = some r) ∧
    (∀ st r, parseGroupedExpression n st = some r →
        parseGroupedExpression (n + 1) st = some r) ∧
    (∀ st r, parseIfExpression n st = some r → parseIfExpression (n + 1) st = some r) ∧
    (∀ st r, parseBlockStatement n st = some r →
        parseBlockStatement (n + 1) st = some r) ∧
    (∀ tok st acc r, blockLoop n tok st acc = some r →
        blockLoop (n + 1) tok st acc = some r) ∧
    (∀ st r, parseFunctionLiteral n st = some r →
        parseFunctionLiteral (n + 1) st = some r) ∧
    (∀ st r, parseFunctionParams n st = some r →
        parseFunctionParams (n + 1) st = some r) ∧
    (∀ acc st r, paramsLoop n acc st = some r → paramsLoop (n + 1) acc st = some r) ∧
    (∀ left st r, parseCallExpression n left st = some r →
        parseCallExpression (n + 1) left st = some r) ∧
    (∀ st r, parseCallArgs n st = some r → parseCallArgs (n + 1) st = some r) ∧
    (∀ acc st r, argsLoop n acc st = some r → argsLoop (n + 1) acc st = some r) ∧
    (∀ st r, parseLetStatement n st = some r → parseLetStatement (n + 1) st = some r) ∧
    (∀ st r, parseReturnStatement n st = some r →
        parseReturnStatement (n + 1) st = some r) ∧
    (∀ st r, parseExpressionStatement n st = some r →
        parseExpressionStatement (n + 1) st = some r) ∧
    (∀ st r, parseStatement n st = some r → parseStatement (n + 1) st = some r) := by
  intro n
  induction n with
  | zero =>
    exact ⟨fun _ _ _ h => Option.noConfusion h, fun _ _ _ _ h => Option.noConfusion h,
      fun _ _ _ h => Option.noConfusion h, fun _ _ _ _ h => Option.noConfusion h,
      fun _ _ h => Option.noConfusion h, fun _ _ _ h => Option.noConfusion h,
      fun _ _ h => Option.noConfusion h, fun _ _ h => Option.noConfusion h,
      fun _ _ h => Option.noConfusion h, fun _ _ _ _ h => Option.noConfusion h,
      fun _ _ h => Option.noConfusion h, fun _ _ h => Option.noConfusion h,
      fun _ _ _ h => Option.noConfusion h, fun _ _ _ h => Option.noConfusion h,
      fun _ _ h => Option.noConfusion h, fun _ _ _ h => Option.noConfusion h,
      fun _ _ h => Option.noConfusion h, fun _ _ h => Option.noConfusion h,
      fun _ _ h => Option.noConfusion h, fun _ _ h => Option.noConfusion h⟩
  | succ n ih =>
    obtain ⟨ihPE, ihLoop, ihRunP, ihRunI, ihPre, ihInf, ihGrp, ihIf, ihBlk, ihBlkL,
      ihFn, ihPar, ihParL, ihCall, ihArgs, ihArgsL, ihLet, ihRet, ihExS, ihStmt⟩ := ih
    refine ⟨?_, ?_, ?_, ?_, ?_, ?_, ?_, ?_, ?_, ?_, ?_, ?_, ?_, ?_, ?_, ?_, ?_, ?_, ?_, ?_⟩
    · intro prec st r h
      rw [parseExpression] at h ⊢
      rcases hpf : prefixParseFns (currToken st).type with _ | pf
      · simp only [hpf] at h ⊢; exact h
      · simp only [hpf] at h ⊢
        rcases hrun : runPrefixFn n pf st with _ | ⟨left, st1⟩
        · simp only [hrun] at h; exact Option.noConfusion h
        · simp only [hrun] at h
          rw [ihRunP pf st (left, st1) hrun]
          exact ihLoop prec left st1 r h
    · intro prec left st r h
      rw [parseExprLoop] at h ⊢
      by_cases hc : (peekToken st).type ≠ TokenType.SEMICOLON ∧ prec < peekPrecedence st
      · rw [if_pos hc] at h ⊢
        rcases hif : infixParseFns (peekToken st).type with _ | f
        · simp only [hif] at h ⊢; exact h
        · simp only [hif] at h ⊢
          rcases hrun : runInfixFn n f left (nextTok st) with _ | ⟨left1, st1⟩
          · simp only [hrun] at h; exact Option.noConfusion h
          · simp only [hrun] at h
            rw [ihRunI f left (nextTok st) (left1, st1) hrun]
            exact ihLoop prec left1 st1 r h
      · rw [if_neg hc] at h ⊢; exact h
    · intro pf st r h
      cases pf with
      | pIdent => rw [runPrefixFn] at h ⊢; exact h
      | pIntLit => rw [runPrefixFn] at h ⊢; exact h
      | pPrefixExpr => rw [runPrefixFn] at h ⊢; exact ihPre st r h
      | pBool => rw [runPrefixFn] at h ⊢; exact h
      | pGrouped => rw [runPrefixFn] at h ⊢; exact ihGrp st r h
      | pIf => rw [runPrefixFn] at h ⊢; exact ihIf st r h
      | pFunctionLit => rw [runPrefixFn] at h ⊢; exact ihFn st r h
    · intro f left st r h
      cases f with
      | iInfixExpr => rw [runInfixFn] at h ⊢; exact ihInf left st r h
      | iCall => rw [runInfixFn] at h ⊢; exact ihCall left st r h
    · intro st r h
      simp only [parsePrefixExpression] at h ⊢
      rcases hpe : parseExpression n PREFIX (nextTok st) with _ | ⟨right, st1⟩
      · simp only [hpe] at h; exact Option.noConfusion h
      · simp only [hpe] at h
        rw [ihPE PREFIX (nextTok st) (right, st1) hpe]
        exact h
    · intro left st r h
      simp only [parseInfixExpression] at h ⊢
      rcases hpe : parseExpression n
          (if (currToken st).literal = "+" then currPrecendence st - 1
           else currPrecendence st) (nextTok st) with _ | ⟨right, st1⟩
      · simp only [hpe] at h; exact Option.noConfusion h
      · simp only [hpe] at h
        rw [ihPE _ (nextTok st) (right, st1) hpe]
        exact h
    · intro st r h
      simp only [parseGroupedExpression] at h ⊢
      rcases hpe : parseExpression n LOWEST (nextTok st) with _ | ⟨e, st1⟩
      · simp only [hpe] at h; exact Option.noConfusion h
      · simp only [hpe] at h
        rw [ihPE LOWEST (nextTok st) (e, st1) hpe]
        exact h
    · intro st r h
      simp only [parseIfExpression] at h ⊢
      rcases hep1 : expectPeek TokenType.LPAREN st with ⟨ok1, st1⟩
      simp only [hep1] at h ⊢
      cases ok1 with
      | false => rw [if_pos (by simp)] at h ⊢; exact h
      | true =>
        rw [if_neg (by simp)] at h ⊢
        rcases hpe : parseExpression n LOWEST (nextTok st1) with _ | ⟨cond, st2⟩
        · simp only [hpe] at h; exact Option.noConfusion h
        · simp only [hpe] at h
          rw [ihPE LOWEST (nextTok st1) (cond, st2) hpe]
          rcases hep2 : expectPeek TokenType.RPAREN st2 with ⟨ok2, st3⟩
          simp only [hep2] at h ⊢
          cases ok2 with
          | false => rw [if_pos (by simp)] at h ⊢; exact h
          | true =>
            rw [if_neg (by simp)] at h ⊢
            rcases hep3 : expectPeek TokenType.LBRACE st3 with ⟨ok3, st4⟩
            simp only [hep3] at h ⊢
            cases ok3 with
            | false => rw [if_pos (by simp)] at h ⊢; exact h
            | true =>
              rw [if_neg (by simp)] at h ⊢
              rcases hbk : parseBlockStatement n st4 with _ | ⟨cons, st5⟩
              · simp only [hbk] at h; exact Option.noConfusion h
              · simp only [hbk] at h
                simp only [ihBlk st4 (cons, st5) hbk]
                by_cases hel : (peekToken st5).type = TokenType.ELSE
                · rw [if_pos hel] at h ⊢
                  rcases hep4 : expectPeek TokenType.LBRACE (nextTok st5) with ⟨ok4, st6⟩
                  simp only [hep4] at h ⊢
                  cases ok4 with
                  | false => rw [if_pos (by simp)] at h ⊢; exact h
                  | true =>
                    rw [if_neg (by simp)] at h ⊢
                    rcases hbk2 : parseBlockStatement n st6 with _ | ⟨alt, st7⟩
                    · simp only [hbk2] at h; exact Option.noConfusion h
                    · simp only [hbk2] at h
                      rw [ihBlk st6 (alt, st7) hbk2]
                      exact h
                · rw [if_neg hel] at h ⊢; exact h
    · intro st r h
      rw [parseBlockStatement] at h ⊢
      exact ihBlkL (currToken st) (nextTok st) [] r h
    · intro tok st acc r h
      rw [blockLoop] at h ⊢
      by_cases hc : (currToken st).type ≠ TokenType.RBRACE ∧
          (currToken st).type ≠ TokenType.EOF
      · rw [if_pos hc] at h ⊢
        rcases hst : parseStatement n st with _ | ⟨s, st1⟩
        · simp only [hst] at h; exact Option.noConfusion h
        · simp only [hst] at h
          rw [ihStmt st (s, st1) hst]
          exact ihBlkL tok (nextTok st1) (acc ++ [s]) r h
      · rw [if_neg hc] at h ⊢; exact h
    · intro st r h
      simp only [parseFunctionLiteral] at h ⊢
      rcases hep1 : expectPeek TokenType.LPAREN st with ⟨ok1, st1⟩
      simp only [hep1] at h ⊢
      cases ok1 with
      | false => rw [if_pos (by simp)] at h ⊢; exact h
      | true =>
        rw [if_neg (by simp)] at h ⊢
        rcases hps : parseFunctionParams n st1 with _ | ⟨params, st2⟩
        · simp only [hps] at h; exact Option.noConfusion h
        · simp only [hps] at h
          rw [ihPar st1 (params, st2) hps]
          rcases hep2 : expectPeek TokenType.LBRACE st2 with ⟨ok2, st3⟩
          simp only [hep2] at h ⊢
          cases ok2 with
          | false => rw [if_pos (by simp)] at h ⊢; exact h
          | true =>
            rw [if_neg (by simp)] at h ⊢
            rcases hbk : parseBlockStatement n st3 with _ | ⟨body, st4⟩
            · simp only [hbk] at h; exact Option.noConfusion h
            · simp only [hbk] at h
              rw [ihBlk st3 (body, st4) hbk]
              exact h
    · intro st r h
      rw [parseFunctionParams] at h ⊢
      by_cases hc : (peekToken st).type = TokenType.RPAREN
      · rw [if_pos hc] at h ⊢; exact h
      · rw [if_neg hc] at h ⊢
        exact ihParL _ (nextTok st) r h
    · intro acc st r h
      rw [paramsLoop] at h ⊢
      by_cases hc : (peekToken st).type = TokenType.COMMA
      · rw [if_pos hc] at h ⊢
        exact ihParL _ (nextTok (nextTok st)) r h
      · rw [if_neg hc] at h ⊢; exact h
    · intro left st r h
      simp only [parseCallExpression] at h ⊢
      rcases hca : parseCallArgs n st with _ | ⟨args, st1⟩
      · simp only [hca] at h; exact Option.noConfusion h
      · simp only [hca] at h
        rw [ihArgs st (args, st1) hca]
        exact h
    · intro st r h
      rw [parseCallArgs] at h ⊢
      by_cases hc : (peekToken st).type = TokenType.RPAREN
      · rw [if_pos hc] at h ⊢; exact h
      · rw [if_neg hc] at h ⊢
        rcases hpe : parseExpression n LOWEST (nextTok st) with _ | ⟨a, st1⟩
        · simp only [hpe] at h; exact Option.noConfusion h
        · simp only [hpe] at h
          rw [ihPE LOWEST (nextTok st) (a, st1) hpe]
          exact ihArgsL _ st1 r h
    · intro acc st r h
      rw [argsLoop] at h ⊢
      by_cases hc : (peekToken st).type = TokenType.COMMA
      · rw [if_pos hc] at h ⊢
        rcases hpe : parseExpression n LOWEST (nextTok (nextTok st)) with _ | ⟨a, st1⟩
        · simp only [hpe] at h; exact Option.noConfusion h
        · simp only [hpe] at h
          rw [ihPE LOWEST (nextTok (nextTok st)) (a, st1) hpe]
          exact ihArgsL _ st1 r h
      · rw [if_neg hc] at h ⊢; exact h
    · intro st r h
      simp only [parseLetStatement] at h ⊢
      rcases hep1 : expectPeek TokenType.IDENT st with ⟨ok1, st1⟩
      simp only [hep1] at h ⊢
      cases ok1 with
      | false => rw [if_pos (by simp)] at h ⊢; exact h
      | true =>
        rw [if_neg (by simp)] at h ⊢
        rcases hep2 : expectPeek TokenType.ASSIGN st1 with ⟨ok2, st2⟩
        simp only [hep2] at h ⊢
        cases ok2 with
        | false => rw [if_pos (by simp)] at h ⊢; exact h
        | true =>
          rw [if_neg (by simp)] at h ⊢
          rcases hpe : parseExpression n LOWEST (nextTok st2) with _ | ⟨v, st3⟩
          · simp only [hpe] at h; exact Option.noConfusion h
          · simp only [hpe] at h
            rw [ihPE LOWEST (nextTok st2) (v, st3) hpe]
            exact h
    · intro st r h
      simp only [parseReturnStatement] at h ⊢
      rcases hpe : parseExpression n LOWEST (nextTok st) with _ | ⟨v, st1⟩
      · simp only [hpe] at h; exact Option.noConfusion h
      · simp only [hpe] at h
        simp only [ihPE LOWEST (nextTok st) (v, st1) hpe]
        rcases hsc : scanToSemi n st1 with _ | st2
        · simp only [hsc] at h; exact Option.noConfusion h
        · simp only [hsc] at h
          simp only [scanToSemi_fuelStep n st1 st2 hsc]
          exact h
    · intro st r h
      simp only [parseExpressionStatement] at h ⊢
      rcases hpe : parseExpression n LOWEST st with _ | ⟨e, st1⟩
      · simp only [hpe] at h; exact Option.noConfusion h
      · simp only [hpe] at h
        rw [ihPE LOWEST st (e, st1) hpe]
        exact h
    · intro st r h
      rw [parseStatement] at h ⊢
      rcases hty : (currToken st).type
      case LET => exact ihLet st r (by rw [hty] at h; exact h)
      case RETURN => exact ihRet st r (by rw [hty] at h; exact h)
      all_goals exact ihExS st r (by rw [hty] at h; exact h)

theorem scanToSemi_fuelMono {n m : Nat} (hle : n ≤ m) :
    ∀ st st1, scanToSemi n st = some st1 → scanToSemi m st = some st1 := by
  induction hle with
  | refl => exact fun _ _ h => h
  | step _ ih =>
    intro st st1 h
    exact scanToSemi_fuelStep _ st st1 (ih st st1 h)

theorem parseExpression_fuelMono {n m : Nat} (hle : n ≤ m) :
    ∀ prec st r, parseExpression n prec st = some r →
      parseExpression m prec st = some r := by
  induction hle with
  | refl => exact fun _ _ _ h => h
  | step _ ih =>
    intro prec st r h
    obtain ⟨hf, -⟩ := parser_fuelStep _
    exact hf prec st r (ih prec st r h)

theorem parseExprLoop_fuelMono {n m : Nat} (hle : n ≤ m) :
    ∀ prec left st r, parseExprLoop n prec left st = some r →
      parseExprLoop m prec left st = some r := by
  induction hle with
  | refl => exact fun _ _ _ _ h => h
  | step _ ih =>
    intro prec left st r h
    obtain ⟨-, hf, -⟩ := parser_fuelStep _
    exact hf prec left st r (ih prec left st r h)

theorem runPrefixFn_fuelMono {n m : Nat} (hle : n ≤ m) :
    ∀ pf st r, runPrefixFn n pf st = some r → runPrefixFn m pf st = some r := by
  induction hle with
  | refl => exact fun _ _ _ h => h
  | step _ ih =>
    intro pf st r h
    obtain ⟨-, -, hf, -⟩ := parser_fuelStep _
    exact hf pf st r (ih pf st r h)

theorem runInfixFn_fuelMono {n m : Nat} (hle : n ≤ m) :
    ∀ f left st r, runInfixFn n f left st = some r →
      runInfixFn m f left st = some r := by
  induction hle with
  | refl => exact fun _ _ _ _ h => h
  | step _ ih =>
    intro f left st r h
    obtain ⟨-, -, -, hf, -⟩ := parser_fuelStep _
    exact hf f left st r (ih f left st r h)

theorem parsePrefixExpression_fuelMono {n m : Nat} (hle : n ≤ m) :
    ∀ st r, parsePrefixExpression n st = some r →
      parsePrefixExpression m st = some r := by
  induction hle with
  | refl => exact fun _ _ h => h
  | step _ ih =>
    intro st r h
    obtain ⟨-, -, -, -, hf, -⟩ := parser_fuelStep _
    exact hf st r (ih st r h)

theorem parseInfixExpression_fuelMono {n m : Nat} (hle : n ≤ m) :
    ∀ left st r, parseInfixExpression n left st = some r →
      parseInfixExpression m left st = some r := by
  induction hle with
  | refl => exact fun _ _ _ h => h
  | step _ ih =>
    intro left st r h
    obtain ⟨-, -, -, -, -, hf, -⟩ := parser_fuelStep _
    exact hf left st r (ih left st r h)

theorem parseGroupedExpression_fuelMono {n m : Nat} (hle : n ≤ m) :
    ∀ st r, parseGroupedExpression n st = some r →
      parseGroupedExpression m st = some r := by
  induction hle with
  | refl => exact fun _ _ h => h
  | step _ ih =>
    intro st r h
    obtain ⟨-, -, -, -, -, -, hf, -⟩ := parser_fuelStep _
    exact hf st r (ih st r h)

theorem parseIfExpression_fuelMono {n m : Nat} (hle : n ≤ m) :
    ∀ st r, parseIfExpression n st = some r → parseIfExpression m st = some r := by
  induction hle with
  | refl => exact fun _ _ h => h
  | step _ ih =>
    intro st r h
    obtain ⟨-, -, -, -, -, -, -, hf, -⟩ := parser_fuelStep _
    exact hf st r (ih st r h)

theorem parseBlockStatement_fuelMono {n m : Nat} (hle : n ≤ m) :
    ∀ st r, parseBlockStatement n st = some r →
      parseBlockStatement m st = some r := by
  induction hle with
  | refl => exact fun _ _ h => h
  | step _ ih =>
    intro st r h
    obtain ⟨-, -, -, -, -, -, -, -, hf, -⟩ := parser_fuelStep _
    exact hf st r (ih st r h)

theorem blockLoop_fuelMono {n m : Nat} (hle : n ≤ m) :
    ∀ tok st acc r, blockLoop n tok st acc = some r →
      blockLoop m tok st acc = some r := by
  induction hle with
  | refl => exact fun _ _ _ _ h => h
  | step _ ih =>
    intro tok st acc r h
    obtain ⟨-, -, -, -, -, -, -, -, -, hf, -⟩ := parser_fuelStep _
    exact hf tok st acc r (ih tok st acc r h)

theorem parseFunctionLiteral_fuelMono {n m : Nat} (hle : n ≤ m) :
    ∀ st r, parseFunctionLiteral n st = some r →
      parseFunctionLiteral m st = some r := by
  induction hle with
  | refl => exact fun _ _ h => h
  | step _ ih =>
    intro st r h
    obtain ⟨-, -, -, -, -, -, -, -, -, -, hf, -⟩ := parser_fuelStep _
    exact hf st r (ih st r h)

theorem parseFunctionParams_fuelMono {n m : Nat} (hle : n ≤ m) :
    ∀ st r, parseFunctionParams n st = some r →
      parseFunctionParams m st = some r := by
  induction hle with
  | refl => exact fun _ _ h => h
  | step _ ih =>
    intro st r h
    obtain ⟨-, -, -, -, -, -, -, -, -, -, -, hf, -⟩ := parser_fuelStep _
    exact hf st r (ih st r h)

theorem paramsLoop_fuelMono {n m : Nat} (hle : n ≤ m) :
    ∀ acc st r, paramsLoop n acc st = some r → paramsLoop m acc st = some r := by
  induction hle with
  | refl => exact fun _ _ _ h => h
  | step _ ih =>
    intro acc st r h
    obtain ⟨-, -, -, -, -, -, -, -, -, -, -, -, hf, -⟩ := parser_fuelStep _
    exact hf acc st r (ih acc st r h)

theorem parseCallExpression_fuelMono {n m : Nat} (hle : n ≤ m) :
    ∀ left st r, parseCallExpression n left st = some r →
      parseCallExpression m left st = some r := by
  induction hle with
  | refl => exact fun _ _ _ h => h
  | step _ ih =>
    intro left st r h
    obtain ⟨-, -, -, -, -, -, -, -, -, -, -, -, -, hf, -⟩ := parser_fuelStep _
    exact hf left st r (ih left st r h)

theorem parseCallArgs_fuelMono {n m : Nat} (hle : n ≤ m) :
    ∀ st r, parseCallArgs n st = some r → parseCallArgs m st = some r := by
  induction hle with
  | refl => exact fun _ _ h => h
  | step _ ih =>
    intro st r h
    obtain ⟨-, -, -, -, -, -, -, -, -, -, -, -, -, -, hf, -⟩ := parser_fuelStep _
    exact hf st r (ih st r h)

theorem argsLoop_fuelMono {n m : Nat} (hle : n ≤ m) :
    ∀ acc st r, argsLoop n acc st = some r → argsLoop m acc st = some r := by
  induction hle with
  | refl => exact fun _ _ _ h => h
  | step _ ih =>
    intro acc st r h
    obtain ⟨-, -, -, -, -, -, -, -, -, -, -, -, -, -, -, hf, -⟩ := parser_fuelStep _
    exact hf acc st r (ih acc st r h)

theorem parseLetStatement_fuelMono {n m : Nat} (hle : n ≤ m) :
    ∀ st r, parseLetStatement n st = some r → parseLetStatement m st = some r := by
  induction hle with
  | refl => exact fun _ _ h => h
  | step _ ih =>
    intro st r h
    obtain ⟨-, -, -, -, -, -, -, -, -, -, -, -, -, -, -, -, hf, -⟩ := parser_fuelStep _
    exact hf st r (ih st r h)

theorem parseExpressionStatement_fuelMono {n m : Nat} (hle : n ≤ m) :
    ∀ st r, parseExpressionStatement n st = some r →
      parseExpressionStatement m st = some r := by
  induction hle with
  | refl => exact fun _ _ h => h
  | step _ ih =>
    intro st r h
    obtain ⟨-, -, -, -, -, -, -, -, -, -, -, -, -, -, -, -, -, -, hf, -⟩ := parser_fuelStep _
    exact hf st r (ih st r h)

theorem parseStatement_fuelMono {n m : Nat} (hle : n ≤ m) :
    ∀ st r, parseStatement n st = some r → parseStatement m st = some r := by
  induction hle with
  | refl => exact fun _ _ h => h
  | step _ ih =>
    intro st r h
    obtain ⟨-, -, -, -, -, -, -, -, -, -, -, -, -, -, -, -, -, -, -, hf⟩ := parser_fuelStep _
    exact hf st r (ih st r h)

theorem parseProgLoop_fuelStep :
    ∀ (n : Nat) (st : PState) (acc : List (Option Stmt)) r,
      parseProgLoop n st acc = some r → parseProgLoop (n + 1) st acc = some r := by
  intro n
  induction n with
  | zero => intro st acc r h; exact Option.noConfusion h
  | succ k ih =>
    intro st acc r h
    rw [parseProgLoop] at h ⊢
    by_cases hc : (currToken st).type = TokenType.EOF
    · rw [if_pos hc] at h ⊢; exact h
    · rw [if_neg hc] at h ⊢
      rcases hst : parseStatement k st with _ | ⟨s, st1⟩
      · simp only [hst] at h; exact Option.noConfusion h
      · simp only [hst] at h
        obtain ⟨-, -, -, -, -, -, -, -, -, -, -, -, -, -, -, -, -, -, -, hStmt⟩ :=
          parser_fuelStep k
        simp only [hStmt st (s, st1) hst]
        exact ih (nextTok st1) (acc ++ [s]) r h

theorem parseProgLoop_fuelMono {n m : Nat} (hle : n ≤ m) :
    ∀ st acc r, parseProgLoop n st acc = some r → parseProgLoop m st acc = some r := by
  induction hle with
  | refl => exact fun _ _ _ h => h
  | step _ ih =>
    intro st acc r h
    exact parseProgLoop_fuelStep _ st acc r (ih st acc r h)

/-- State evolution: a parser step never rewrites the token stream and never
moves the window backwards. -/
def evolves (st st1 : PState) : Prop := st1.toks = st.toks ∧ st.pos ≤ st1.pos

theorem evolves_refl (st : PState) : evolves st st := ⟨rfl, Nat.le_refl _⟩

theorem evolves_trans {a b c : PState} (h1 : evolves a b) (h2 : evolves b c) :
    evolves a c := ⟨h2.1.trans h1.1, h1.2.trans h2.2⟩

theorem evolves_nextTok (st : PState) : evolves st (nextTok st) :=
  ⟨rfl, Nat.le_succ _⟩

theorem evolves_peekError (t : TokenType) (st : PState) :
    evolves st (peekError t st) := ⟨rfl, Nat.le_refl _⟩

theorem evolves_noPrefix (t : TokenType) (st : PState) :
    evolves st (noPrefixParseFnError t st) := ⟨rfl, Nat.le_refl _⟩

theorem expectPeek_evol {t : TokenType} {st : PState} {ok : Bool} {st1 : PState}
    (h : expectPeek t st = (ok, st1)) : evolves st st1 := by
  rw [expectPeek] at h
  by_cases hp : peekTokenIs t st
  · rw [if_pos hp] at h
    cases h
    exact evolves_nextTok st
  · rw [if_neg hp] at h
    cases h
    exact evolves_peekError t st

theorem expectPeek_eq_true {t : TokenType} {st : PState} {st1 : PState}
    (h : expectPeek t st = (true, st1)) :
    st1 = nextTok st ∧ (peekToken st).type = t := by
  rw [expectPeek] at h
  by_cases hp : peekTokenIs t st
  · rw [if_pos hp] at h
    cases h
    exact ⟨rfl, of_decide_eq_true hp⟩
  · rw [if_neg hp] at h
    exact absurd (congrArg Prod.fst h) Bool.false_ne_true

theorem expectPeek_eq_false {t : TokenType} {st : PState} {st1 : PState}
    (h : expectPeek t st = (false, st1)) : st1 = peekError t st := by
  rw [expectPeek] at h
  by_cases hp : peekTokenIs t st
  · rw [if_pos hp] at h
    exact absurd (congrArg Prod.fst h).symm Bool.false_ne_true
  · rw [if_neg hp] at h
    cases h
    rfl

theorem parseIntegerLiteral_snd (st : PState) :
    evolves st (parseIntegerLiteral st).2 := by
  rw [parseIntegerLiteral]
  rcases goParseInt (currToken st).literal with _ | v
  · exact ⟨rfl, Nat.le_refl _⟩
  · exact evolves_refl st

theorem scanToSemi_evol :
    ∀ (n : Nat) (st st1 : PState), scanToSemi n st = some st1 → evolves st st1 := by
  intro n
  induction n with
  | zero => intro st st1 h; exact Option.noConfusion h
  | succ k ih =>
    intro st st1 h
    rw [scanToSemi] at h
    by_cases hc : (currToken st).type = TokenType.SEMICOLON
    · rw [if_pos hc] at h
      cases h
      exact evolves_refl st
    · rw [if_neg hc] at h
      exact evolves_trans (evolves_nextTok st) (ih (nextTok st) st1 h)

theorem parser_stateEvol : ∀ n : Nat,
    (∀ prec st r, parseExpression n prec st = some r → evolves st r.2) ∧
    (∀ prec left st r, parseExprLoop n prec left st = some r → evolves st r.2) ∧
    (∀ pf st r, runPrefixFn n pf st = some r → evolves st r.2) ∧
    (∀ f left st r, runInfixFn n f left st = some r → evolves st r.2) ∧
    (∀ st r, parsePrefixExpression n st = some r → evolves st r.2) ∧
    (∀ left st r, parseInfixExpression n left st = some r → evolves st r.2) ∧
    (∀ st r, parseGroupedExpression n st = some r → evolves st r.2) ∧
    (∀ st r, parseIfExpression n st = some r → evolves st r.2) ∧
    (∀ st r, parseBlockStatement n st = some r → evolves st r.2) ∧
    (∀ tok st acc r, blockLoop n tok st acc = some r → evolves st r.2) ∧
    (∀ st r, parseFunctionLiteral n st = some r → evolves st r.2) ∧
    (∀ st r, parseFunctionParams n st = some r → evolves st r.2) ∧
    (∀ acc st r, paramsLoop n acc st = some r → evolves st r.2) ∧
    (∀ left st r, parseCallExpression n left st = some r → evolves st r.2) ∧
    (∀ st r, parseCallArgs n st = some r → evolves st r.2) ∧
    (∀ acc st r, argsLoop n acc st = some r → evolves st r.2) ∧
    (∀ st r, parseLetStatement n st = some r → evolves st r.2) ∧
    (∀ st r, parseReturnStatement n st = some r → evolves st r.2) ∧
    (∀ st r, parseExpressionStatement n st = some r → evolves st r.2) ∧
    (∀ st r, parseStatement n st = some r → evolves st r.2) := by
  intro n
  induction n with
  | zero =>
    exact ⟨fun _ _ _ h => Option.noConfusion h, fun _ _ _ _ h => Option.noConfusion h,
      fun _ _ _ h => Option.noConfusion h, fun _ _ _ _ h => Option.noConfusion h,
      fun _ _ h => Option.noConfusion h, fun _ _ _ h => Option.noConfusion h,
      fun _ _ h => Option.noConfusion h, fun _ _ h => Option.noConfusion h,
      fun _ _ h => Option.noConfusion h, fun _ _ _ _ h => Option.noConfusion h,
      fun _ _ h => Option.noConfusion h, fun _ _ h => Option.noConfusion h,
      fun _ _ _ h => Option.noConfusion h, fun _ _ _ h => Option.noConfusion h,
      fun _ _ h => Option.noConfusion h, fun _ _ _ h => Option.noConfusion h,
      fun _ _ h => Option.noConfusion h, fun _ _ h => Option.noConfusion h,
      fun _ _ h => Option.noConfusion h, fun _ _ h => Option.noConfusion h⟩
  | succ n ih =>
    obtain ⟨ihPE, ihLoop, ihRunP, ihRunI, ihPre, ihInf, ihGrp, ihIf, ihBlk, ihBlkL,
      ihFn, ihPar, ihParL, ihCall, ihArgs, ihArgsL, ihLet, ihRet, ihExS, ihStmt⟩ := ih
    refine ⟨?_, ?_, ?_, ?_, ?_, ?_, ?_, ?_, ?_, ?_, ?_, ?_, ?_, ?_, ?_, ?_, ?_, ?_, ?_, ?_⟩
    · intro prec st r h
      rw [parseExpression] at h
      rcases hpf : prefixParseFns (currToken st).type with _ | pf
      · simp only [hpf] at h
        cases h
        exact evolves_noPrefix _ st
      · simp only [hpf] at h
        rcases hrun : runPrefixFn n pf st with _ | ⟨left, st1⟩
        · simp only [hrun] at h; exact Option.noConfusion h
        · simp only [hrun] at h
          exact evolves_trans (ihRunP pf st (left, st1) hrun) (ihLoop prec left st1 r h)
    · intro prec left st r h
      rw [parseExprLoop] at h
      by_cases hc : (peekToken st).type ≠ TokenType.SEMICOLON ∧ prec < peekPrecedence st
      · rw [if_pos hc] at h
        rcases hif : infixParseFns (peekToken st).type with _ | f
        · simp only [hif] at h
          cases h
          exact evolves_refl st
        · simp only [hif] at h
          rcases hrun : runInfixFn n f left (nextTok st) with _ | ⟨left1, st1⟩
          · simp only [hrun] at h; exact Option.noConfusion h
          · simp only [hrun] at h
            exact evolves_trans (evolves_nextTok st)
              (evolves_trans (ihRunI f left (nextTok st) (left1, st1) hrun)
                (ihLoop prec left1 st1 r h))
      · rw [if_neg hc] at h
        cases h
        exact evolves_refl st
    · intro pf st r h
      cases pf with
      | pIdent => rw [runPrefixFn] at h; cases h; exact evolves_refl st
      | pIntLit =>
        rw [runPrefixFn] at h
        cases h
        exact parseIntegerLiteral_snd st
      | pPrefixExpr => rw [runPrefixFn] at h; exact ihPre st r h
      | pBool => rw [runPrefixFn] at h; cases h; exact evolves_refl st
      | pGrouped => rw [runPrefixFn] at h; exact ihGrp st r h
      | pIf => rw [runPrefixFn] at h; exact ihIf st r h
      | pFunctionLit => rw [runPrefixFn] at h; exact ihFn st r h
    · intro f left st r h
      cases f with
      | iInfixExpr => rw [runInfixFn] at h; exact ihInf left st r h
      | iCall => rw [runInfixFn] at h; exact ihCall left st r h
    · intro st r h
      simp only [parsePrefixExpression] at h
      rcases hpe : parseExpression n PREFIX (nextTok st) with _ | ⟨right, st1⟩
      · simp only [hpe] at h; exact Option.noConfusion h
      · simp only [hpe] at h
        cases h
        exact evolves_trans (evolves_nextTok st) (ihPE PREFIX (nextTok st) (right, st1) hpe)
    · intro left st r h
      simp only [parseInfixExpression] at h
      rcases hpe : parseExpression n
          (if (currToken st).literal = "+" then currPrecendence st - 1
           else currPrecendence st) (nextTok st) with _ | ⟨right, st1⟩
      · simp only [hpe] at h; exact Option.noConfusion h
      · simp only [hpe] at h
        cases h
        exact evolves_trans (evolves_nextTok st) (ihPE _ (nextTok st) (right, st1) hpe)
    · intro st r h
      simp only [parseGroupedExpression] at h
      rcases hpe : parseExpression n LOWEST (nextTok st) with _ | ⟨e, st1⟩
      · simp only [hpe] at h; exact Option.noConfusion h
      · simp only [hpe] at h
        rcases hep : expectPeek TokenType.RPAREN st1 with ⟨ok, st2⟩
        simp only [hep] at h
        have hev : evolves st st2 :=
          evolves_trans (evolves_nextTok st)
            (evolves_trans (ihPE LOWEST (nextTok st) (e, st1) hpe) (expectPeek_evol hep))
        cases ok with
        | true => rw [if_pos rfl] at h; cases h; exact hev
        | false => rw [if_neg Bool.false_ne_true] at h; cases h; exact hev
    · intro st r h
      simp only [parseIfExpression] at h
      rcases hep1 : expectPeek TokenType.LPAREN st with ⟨ok1, st1⟩
      simp only [hep1] at h
      cases ok1 with
      | false => rw [if_pos (by simp)] at h; cases h; exact expectPeek_evol hep1
      | true =>
        rw [if_neg (by simp)] at h
        have hev1 : evolves st (nextTok st1) :=
          evolves_trans (expectPeek_evol hep1) (evolves_nextTok st1)
        rcases hpe : parseExpression n LOWEST (nextTok st1) with _ | ⟨cond, st2⟩
        · simp only [hpe] at h; exact Option.noConfusion h
        · simp only [hpe] at h
          have hev2 : evolves st st2 :=
            evolves_trans hev1 (ihPE LOWEST (nextTok st1) (cond, st2) hpe)
          rcases hep2 : expectPeek TokenType.RPAREN st2 with ⟨ok2, st3⟩
          simp only [hep2] at h
          cases ok2 with
          | false =>
            rw [if_pos (by simp)] at h
            cases h
            exact evolves_trans hev2 (expectPeek_evol hep2)
          | true =>
            rw [if_neg (by simp)] at h
            have hev3 : evolves st st3 := evolves_trans hev2 (expectPeek_evol hep2)
            rcases hep3 : expectPeek TokenType.LBRACE st3 with ⟨ok3, st4⟩
            simp only [hep3] at h
            cases ok3 with
            | false =>
              rw [if_pos (by simp)] at h
              cases h
              exact evolves_trans hev3 (expectPeek_evol hep3)
            | true =>
              rw [if_neg (by simp)] at h
              have hev4 : evolves st st4 := evolves_trans hev3 (expectPeek_evol hep3)
              rcases hbk : parseBlockStatement n st4 with _ | ⟨cons, st5⟩
              · simp only [hbk] at h; exact Option.noConfusion h
              · simp only [hbk] at h
                have hev5 : evolves st st5 :=
                  evolves_trans hev4 (ihBlk st4 (cons, st5) hbk)
                by_cases hel : (peekToken st5).type = TokenType.ELSE
                · rw [if_pos hel] at h
                  rcases hep4 : expectPeek TokenType.LBRACE (nextTok st5) with ⟨ok4, st6⟩
                  simp only [hep4] at h
                  have hev6 : evolves st st6 :=
                    evolves_trans hev5
                      (evolves_trans (evolves_nextTok st5) (expectPeek_evol hep4))
                  cases ok4 with
                  | false => rw [if_pos (by simp)] at h; cases h; exact hev6
                  | true =>
                    rw [if_neg (by simp)] at h
                    rcases hbk2 : parseBlockStatement n st6 with _ | ⟨alt, st7⟩
                    · simp only [hbk2] at h; exact Option.noConfusion h
                    · simp only [hbk2] at h
                      cases h
                      exact evolves_trans hev6 (ihBlk st6 (alt, st7) hbk2)
                · rw [if_neg hel] at h
                  cases h
                  exact hev5
    · intro st r h
      rw [parseBlockStatement] at h
      exact evolves_trans (evolves_nextTok st)
        (ihBlkL (currToken st) (nextTok st) [] r h)
    · intro tok st acc r h
      rw [blockLoop] at h
      by_cases hc : (currToken st).type ≠ TokenType.RBRACE ∧
          (currToken st).type ≠ TokenType.EOF
      · rw [if_pos hc] at h
        rcases hst : parseStatement n st with _ | ⟨s, st1⟩
        · simp only [hst] at h; exact Option.noConfusion h
        · simp only [hst] at h
          exact evolves_trans (ihStmt st (s, st1) hst)
            (evolves_trans (evolves_nextTok st1)
              (ihBlkL tok (nextTok st1) (acc ++ [s]) r h))
      · rw [if_neg hc] at h
        cases h
        exact evolves_refl st
    · intro st r h
      simp only [parseFunctionLiteral] at h
      rcases hep1 : expectPeek TokenType.LPAREN st with ⟨ok1, st1⟩
      simp only [hep1] at h
      cases ok1 with
      | false => rw [if_pos (by simp)] at h; cases h; exact expectPeek_evol hep1
      | true =>
        rw [if_neg (by simp)] at h
        rcases hps : parseFunctionParams n st1 with _ | ⟨params, st2⟩
        · simp only [hps] at h; exact Option.noConfusion h
        · simp only [hps] at h
          have hev2 : evolves st st2 :=
            evolves_trans (expectPeek_evol hep1) (ihPar st1 (params, st2) hps)
          rcases hep2 : expectPeek TokenType.LBRACE st2 with ⟨ok2, st3⟩
          simp only [hep2] at h
          cases ok2 with
          | false =>
            rw [if_pos (by simp)] at h
            cases h
            exact evolves_trans hev2 (expectPeek_evol hep2)
          | true =>
            rw [if_neg (by simp)] at h
            have hev3 : evolves st st3 := evolves_trans hev2 (expectPeek_evol hep2)
            rcases hbk : parseBlockStatement n st3 with _ | ⟨body, st4⟩
            · simp only [hbk] at h; exact Option.noConfusion h
            · simp only [hbk] at h
              cases h
              exact evolves_trans hev3 (ihBlk st3 (body, st4) hbk)
    · intro st r h
      rw [parseFunctionParams] at h
      by_cases hc : (peekToken st).type = TokenType.RPAREN
      · rw [if_pos hc] at h
        cases h
        exact evolves_nextTok st
      · rw [if_neg hc] at h
        exact evolves_trans (evolves_nextTok st) (ihParL _ (nextTok st) r h)
    · intro acc st r h
      rw [paramsLoop] at h
      by_cases hc : (peekToken st).type = TokenType.COMMA
      · rw [if_pos hc] at h
        exact evolves_trans (evolves_nextTok st)
          (evolves_trans (evolves_nextTok (nextTok st))
            (ihParL _ (nextTok (nextTok st)) r h))
      · rw [if_neg hc] at h
        rcases hep : expectPeek TokenType.RPAREN st with ⟨ok, st1⟩
        simp only [hep] at h
        cases ok with
        | true => rw [if_pos rfl] at h; cases h; exact expectPeek_evol hep
        | false => rw [if_neg Bool.false_ne_true] at h; cases h; exact expectPeek_evol hep
    · intro left st r h
      simp only [parseCallExpression] at h
      rcases hca : parseCallArgs n st with _ | ⟨args, st1⟩
      · simp only [hca] at h; exact Option.noConfusion h
      · simp only [hca] at h
        cases h
        exact ihArgs st (args, st1) hca
    · intro st r h
      rw [parseCallArgs] at h
      by_cases hc : (peekToken st).type = TokenType.RPAREN
      · rw [if_pos hc] at h
        cases h
        exact evolves_nextTok st
      · rw [if_neg hc] at h
        rcases hpe : parseExpression n LOWEST (nextTok st) with _ | ⟨a, st1⟩
        · simp only [hpe] at h; exact Option.noConfusion h
        · simp only [hpe] at h
          exact evolves_trans (evolves_nextTok st)
            (evolves_trans (ihPE LOWEST (nextTok st) (a, st1) hpe)
              (ihArgsL _ st1 r h))
    · intro acc st r h
      rw [argsLoop] at h
      by_cases hc : (peekToken st).type = TokenType.COMMA
      · rw [if_pos hc] at h
        rcases hpe : parseExpression n LOWEST (nextTok (nextTok st)) with _ | ⟨a, st1⟩
        · simp only [hpe] at h; exact Option.noConfusion h
        · simp only [hpe] at h
          exact evolves_trans (evolves_nextTok st)
            (evolves_trans (evolves_nextTok (nextTok st))
              (evolves_trans (ihPE LOWEST (nextTok (nextTok st)) (a, st1) hpe)
                (ihArgsL _ st1 r h)))
      · rw [if_neg hc] at h
        rcases hep : expectPeek TokenType.RPAREN st with ⟨ok, st1⟩
        simp only [hep] at h
        cases ok with
        | true => rw [if_pos rfl] at h; cases h; exact expectPeek_evol hep
        | false => rw [if_neg Bool.false_ne_true] at h; cases h; exact expectPeek_evol hep
    · intro st r h
      simp only [parseLetStatement] at h
      rcases hep1 : expectPeek TokenType.IDENT st with ⟨ok1, st1⟩
      simp only [hep1] at h
      cases ok1 with
      | false => rw [if_pos (by simp)] at h; cases h; exact expectPeek_evol hep1
      | true =>
        rw [if_neg (by simp)] at h
        rcases hep2 : expectPeek TokenType.ASSIGN st1 with ⟨ok2, st2⟩
        simp only [hep2] at h
        cases ok2 with
        | false =>
          rw [if_pos (by simp)] at h
          cases h
          exact evolves_trans (expectPeek_evol hep1) (expectPeek_evol hep2)
        | true =>
          rw [if_neg (by simp)] at h
          rcases hpe : parseExpression n LOWEST (nextTok st2) with _ | ⟨v, st3⟩
          · simp only [hpe] at h; exact Option.noConfusion h
          · simp only [hpe] at h
            cases h
            have hev3 : evolves st st3 :=
              evolves_trans (expectPeek_evol hep1)
                (evolves_trans (expectPeek_evol hep2)
                  (evolves_trans (evolves_nextTok st2)
                    (ihPE LOWEST (nextTok st2) (v, st3) hpe)))
            by_cases hs : (peekToken st3).type = TokenType.SEMICOLON
            · rw [if_pos hs]
              exact evolves_trans hev3 (evolves_nextTok st3)
            · rw [if_neg hs]
              exact hev3
    · intro st r h
      simp only [parseReturnStatement] at h
      rcases hpe : parseExpression n LOWEST (nextTok st) with _ | ⟨v, st1⟩
      · simp only [hpe] at h; exact Option.noConfusion h
      · simp only [hpe] at h
        rcases hsc : scanToSemi n st1 with _ | st2
        · simp only [hsc] at h; exact Option.noConfusion h
        · simp only [hsc] at h
          cases h
          exact evolves_trans (evolves_nextTok st)
            (evolves_trans (ihPE LOWEST (nextTok st) (v, st1) hpe)
              (scanToSemi_evol n st1 st2 hsc))
    · intro st r h
      simp only [parseExpressionStatement] at h
      rcases hpe : parseExpression n LOWEST st with _ | ⟨e, st1⟩
      · simp only [hpe] at h; exact Option.noConfusion h
      · simp only [hpe] at h
        cases h
        have hev1 : evolves st st1 := ihPE LOWEST st (e, st1) hpe
        by_cases hs : (peekToken st1).type = TokenType.SEMICOLON
        · rw [if_pos hs]
          exact evolves_trans hev1 (evolves_nextTok st1)
        · rw [if_neg hs]
          exact hev1
    · intro st r h
      rw [parseStatement] at h
      rcases hty : (currToken st).type
      case LET => exact ihLet st r (by rw [hty] at h; exact h)
      case RETURN => exact ihRet st r (by rw [hty] at h; exact h)
      all_goals exact ihExS st r (by rw [hty] at h; exact h)

/-- Past the end of the stream both window tokens are the end-of-input
token. -/
theorem currToken_far {st : PState} (h : st.toks.length ≤ st.pos) :
    currToken st = eofToken := by
  rw [currToken]
  exact List.getD_eq_default _ _ h

theorem peekToken_far {st : PState} (h : st.toks.length ≤ st.pos) :
    peekToken st = eofToken := by
  rw [peekToken]
  exact List.getD_eq_default _ _ (h.trans (Nat.le_succ _))

theorem far_nextTok {st : PState} (h : st.toks.length ≤ st.pos) :
    (nextTok st).toks.length ≤ (nextTok st).pos :=
  h.trans (Nat.le_succ _)

theorem far_evolves {st st1 : PState} (h : st.toks.length ≤ st.pos)
    (he : evolves st st1) : st1.toks.length ≤ st1.pos := by
  rw [he.1]
  exact h.trans he.2

theorem expectPeek_far {t : TokenType} {st : PState}
    (hfar : st.toks.length ≤ st.pos) (ht : t ≠ TokenType.EOF) :
    expectPeek t st = (false, peekError t st) := by
  have hp : peekTokenIs t st = false := by
    rw [peekTokenIs, peekToken_far hfar]
    exact decide_eq_false (fun he => ht he.symm)
  rw [expectPeek, hp]
  rw [if_neg Bool.false_ne_true]

theorem parseExpression_far {st : PState} (hfar : st.toks.length ≤ st.pos) :
    ∀ (n prec : Nat), ∃ r, parseExpression (n + 1) prec st = some r := by
  intro n prec
  refine ⟨(none, noPrefixParseFnError TokenType.EOF st), ?_⟩
  rw [parseExpression, currToken_far hfar]
  rfl

theorem parseExprLoop_far {st : PState} (hfar : st.toks.length ≤ st.pos) :
    ∀ (n prec : Nat) (left : Option Expr), ∃ r,
      parseExprLoop (n + 1) prec left st = some r := by
  intro n prec left
  refine ⟨(left, st), ?_⟩
  rw [parseExprLoop]
  by_cases hc : (peekToken st).type ≠ TokenType.SEMICOLON ∧ prec < peekPrecedence st
  · rw [if_pos hc, peekToken_far hfar]
    rfl
  · rw [if_neg hc]

theorem parsePrefixExpression_far {st : PState} (hfar : st.toks.length ≤ st.pos) :
    ∀ n, ∃ r, parsePrefixExpression (n + 2) st = some r := by
  intro n
  obtain ⟨⟨e, st1⟩, hpe⟩ := parseExpression_far (far_nextTok hfar) n PREFIX
  refine ⟨(some (.prefixE (currToken st) (currToken st).literal e), st1), ?_⟩
  simp only [parsePrefixExpression, hpe]

theorem parseGroupedExpression_far {st : PState} (hfar : st.toks.length ≤ st.pos) :
    ∀ n, ∃ r, parseGroupedExpression (n + 2) st = some r := by
  intro n
  obtain ⟨⟨e, st1⟩, hpe⟩ := parseExpression_far (far_nextTok hfar) n LOWEST
  have hfar1 : st1.toks.length ≤ st1.pos :=
    far_evolves (far_nextTok hfar)
      ((parser_stateEvol (n + 1)).1 LOWEST (nextTok st) (e, st1) hpe)
  refine ⟨(none, peekError TokenType.RPAREN st1), ?_⟩
  simp only [parseGroupedExpression, hpe, @expectPeek_far TokenType.RPAREN st1 hfar1 (by decide)]
  rfl

theorem parseIfExpression_far {st : PState} (hfar : st.toks.length ≤ st.pos) :
    ∀ n, ∃ r, parseIfExpression (n + 1) st = some r := by
  intro n
  refine ⟨(none, peekError TokenType.LPAREN st), ?_⟩
  simp only [parseIfExpression, @expectPeek_far TokenType.LPAREN st hfar (by decide)]
  rfl

theorem parseBlockStatement_far {st : PState} (hfar : st.toks.length ≤ st.pos) :
    ∀ n, ∃ r, parseBlockStatement (n + 2) st = some r := by
  intro n
  refine ⟨(.mk (currToken st) [], nextTok st), ?_⟩
  rw [parseBlockStatement, blockLoop]
  rw [if_neg]
  intro hc
  exact hc.2 (by rw [currToken_far (far_nextTok hfar)]; rfl)

theorem blockLoop_far {st : PState} (hfar : st.toks.length ≤ st.pos) :
    ∀ (n : Nat) (tok : Token) (acc : List (Option Stmt)), ∃ r,
      blockLoop (n + 1) tok st acc = some r := by
  intro n tok acc
  refine ⟨(.mk tok acc, st), ?_⟩
  rw [blockLoop]
  rw [if_neg]
  intro hc
  exact hc.2 (by rw [currToken_far hfar]; rfl)

theorem parseFunctionLiteral_far {st : PState} (hfar : st.toks.length ≤ st.pos) :
    ∀ n, ∃ r, parseFunctionLiteral (n + 1) st = some r := by
  intro n
  refine ⟨(none, peekError TokenType.LPAREN st), ?_⟩
  simp only [parseFunctionLiteral, @expectPeek_far TokenType.LPAREN st hfar (by decide)]
  rfl

theorem paramsLoop_far {st : PState} (hfar : st.toks.length ≤ st.pos) :
    ∀ (n : Nat) (acc : List Identifier), ∃ r, paramsLoop (n + 1) acc st = some r := by
  intro n acc
  refine ⟨(none, peekError TokenType.RPAREN st), ?_⟩
  rw [paramsLoop]
  rw [if_neg (by rw [peekToken_far hfar]; decide)]
  simp only [@expectPeek_far TokenType.RPAREN st hfar (by decide)]
  rfl

theorem parseFunctionParams_far {st : PState} (hfar : st.toks.length ≤ st.pos) :
    ∀ n, ∃ r, parseFunctionParams (n + 2) st = some r := by
  intro n
  obtain ⟨r, hr⟩ := paramsLoop_far (far_nextTok hfar) n
    [⟨currToken (nextTok st), (currToken (nextTok st)).literal⟩]
  refine ⟨r, ?_⟩
  rw [parseFunctionParams]
  rw [if_neg (by rw [peekToken_far hfar]; decide)]
  exact hr

theorem argsLoop_far {st : PState} (hfar : st.toks.length ≤ st.pos) :
    ∀ (n : Nat) (acc : List (Option Expr)), ∃ r, argsLoop (n + 1) acc st = some r := by
  intro n acc
  refine ⟨(none, peekError TokenType.RPAREN st), ?_⟩
  rw [argsLoop]
  rw [if_neg (by rw [peekToken_far hfar]; decide)]
  simp only [@expectPeek_far TokenType.RPAREN st hfar (by decide)]
  rfl

theorem parseCallArgs_far {st : PState} (hfar : st.toks.length ≤ st.pos) :
    ∀ n, ∃ r, parseCallArgs (n + 2) st = some r := by
  intro n
  obtain ⟨⟨a, st1⟩, hpe⟩ := parseExpression_far (far_nextTok hfar) n LOWEST
  have hfar1 : st1.toks.length ≤ st1.pos :=
    far_evolves (far_nextTok hfar)
      ((parser_stateEvol (n + 1)).1 LOWEST (nextTok st) (a, st1) hpe)
  obtain ⟨r, hr⟩ := argsLoop_far hfar1 n [a]
  refine ⟨r, ?_⟩
  rw [parseCallArgs]
  rw [if_neg (by rw [peekToken_far hfar]; decide)]
  simp only [hpe]
  exact hr

theorem parseCallExpression_far {st : PState} (hfar : st.toks.length ≤ st.pos) :
    ∀ (n : Nat) (left : Option Expr), ∃ r,
      parseCallExpression (n + 3) left st = some r := by
  intro n left
  obtain ⟨⟨args, st1⟩, hca⟩ := parseCallArgs_far hfar n
  refine ⟨(some (.callE (currToken st) left args), st1), ?_⟩
  simp only [parseCallExpression, hca]

theorem parseInfixExpression_far {st : PState} (hfar : st.toks.length ≤ st.pos) :
    ∀ (n : Nat) (left : Option Expr), ∃ r,
      parseInfixExpression (n + 2) left st = some r := by
  intro n left
  obtain ⟨⟨e, st1⟩, hpe⟩ := parseExpression_far (far_nextTok hfar) n
    (if (currToken st).literal = "+" then currPrecendence st - 1 else currPrecendence st)
  refine ⟨(some (.infixE (currToken st) (currToken st).literal left e), st1), ?_⟩
  simp only [parseInfixExpression, hpe]

theorem runPrefixFn_far {st : PState} (hfar : st.toks.length ≤ st.pos) :
    ∀ (n : Nat) (pf : PrefixFn), ∃ r, runPrefixFn (n + 3) pf st = some r := by
  intro n pf
  cases pf with
  | pIdent => exact ⟨(some (parseIdentifier st), st), by rw [runPrefixFn]⟩
  | pIntLit => exact ⟨parseIntegerLiteral st, by rw [runPrefixFn]⟩
  | pPrefixExpr =>
    obtain ⟨r, hr⟩ := parsePrefixExpression_far hfar n
    exact ⟨r, by rw [runPrefixFn]; exact hr⟩
  | pBool => exact ⟨(some (parseBoolean st), st), by rw [runPrefixFn]⟩
  | pGrouped =>
    obtain ⟨r, hr⟩ := parseGroupedExpression_far hfar n
    exact ⟨r, by rw [runPrefixFn]; exact hr⟩
  | pIf =>
    obtain ⟨r, hr⟩ := parseIfExpression_far hfar (n + 1)
    exact ⟨r, by rw [runPrefixFn]; exact hr⟩
  | pFunctionLit =>
    obtain ⟨r, hr⟩ := parseFunctionLiteral_far hfar (n + 1)
    exact ⟨r, by rw [runPrefixFn]; exact hr⟩

theorem runInfixFn_far {st : PState} (hfar : st.toks.length ≤ st.pos) :
    ∀ (n : Nat) (f : InfixFn) (left : Option Expr), ∃ r,
      runInfixFn (n + 4) f left st = some r := by
  intro n f left
  cases f with
  | iInfixExpr =>
    obtain ⟨r, hr⟩ := parseInfixExpression_far hfar (n + 1) left
    exact ⟨r, by rw [runInfixFn]; exact hr⟩
  | iCall =>
    obtain ⟨r, hr⟩ := parseCallExpression_far hfar n left
    exact ⟨r, by rw [runInfixFn]; exact hr⟩

theorem parseLetStatement_far {st : PState} (hfar : st.toks.length ≤ st.pos) :
    ∀ n, ∃ r, parseLetStatement (n + 1) st = some r := by
  intro n
  refine ⟨(none, peekError TokenType.IDENT st), ?_⟩
  simp only [parseLetStatement, @expectPeek_far TokenType.IDENT st hfar (by decide)]
  rfl

theorem parseExpressionStatement_far {st : PState} (hfar : st.toks.length ≤ st.pos) :
    ∀ n, ∃ r, parseExpressionStatement (n + 2) st = some r := by
  intro n
  obtain ⟨⟨e, st1⟩, hpe⟩ := parseExpression_far hfar n LOWEST
  have hfar1 : st1.toks.length ≤ st1.pos :=
    far_evolves hfar ((parser_stateEvol (n + 1)).1 LOWEST st (e, st1) hpe)
  refine ⟨(some (.exprS (currToken st) e), st1), ?_⟩
  simp only [parseExpressionStatement, hpe]
  rw [if_neg (by rw [peekToken_far hfar1]; decide)]

theorem parseStatement_far {st : PState} (hfar : st.toks.length ≤ st.pos) :
    ∀ n, ∃ r, parseStatement (n + 3) st = some r := by
  intro n
  obtain ⟨r, hr⟩ := parseExpressionStatement_far hfar n
  refine ⟨r, ?_⟩
  rw [parseStatement, currToken_far hfar]
  exact hr

theorem mu_lt {st st1 : PState} (hlt : st.pos < st.toks.length)
    (htk : st1.toks = st.toks) (hpos : st.pos < st1.pos) :
    st1.toks.length + 1 - st1.pos < st.toks.length + 1 - st.pos := by
  rw [htk]
  omega

theorem currToken_mem {st : PState} (h : st.pos < st.toks.length) :
    currToken st ∈ st.toks := by
  rw [currToken, List.getD_eq_getElem _ _ h]
  exact List.getElem_mem h

theorem noRet_transfer {toks1 toks2 : List Token} (h : toks1 = toks2)
    (hnr : ∀ t ∈ toks2, t.type ≠ TokenType.RETURN) :
    ∀ t ∈ toks1, t.type ≠ TokenType.RETURN := fun t ht => hnr t (h ▸ ht)

/-- Totality off the return path: on a stream with no return keyword, every
parser function other than `parseReturnStatement` completes for some fuel.
The induction is on the window's distance to the end of the stream. -/
theorem parser_total : ∀ N : Nat,
    (∀ prec left st, (∀ t ∈ st.toks, t.type ≠ TokenType.RETURN) →
        st.toks.length + 1 - st.pos ≤ N →
        ∃ fuel r, parseExprLoop fuel prec left st = some r) ∧
    (∀ st, (∀ t ∈ st.toks, t.type ≠ TokenType.RETURN) →
        st.toks.length + 1 - st.pos ≤ N →
        ∃ fuel r, parsePrefixExpression fuel st = some r) ∧
    (∀ st, (∀ t ∈ st.toks, t.type ≠ TokenType.RETURN) →
        st.toks.length + 1 - st.pos ≤ N →
        ∃ fuel r, parseGroupedExpression fuel st = some r) ∧
    (∀ st, (∀ t ∈ st.toks, t.type ≠ TokenType.RETURN) →
        st.toks.length + 1 - st.pos ≤ N →
        ∃ fuel r, parseIfExpression fuel st = some r) ∧
    (∀ st, (∀ t ∈ st.toks, t.type ≠ TokenType.RETURN) →
        st.toks.length + 1 - st.pos ≤ N →
        ∃ fuel r, parseFunctionLiteral fuel st = some r) ∧
    (∀ st, (∀ t ∈ st.toks, t.type ≠ TokenType.RETURN) →
        st.toks.length + 1 - st.pos ≤ N →
        ∃ fuel r, parseFunctionParams fuel st = some r) ∧
    (∀ acc st, (∀ t ∈ st.toks, t.type ≠ TokenType.RETURN) →
        st.toks.length + 1 - st.pos ≤ N →
        ∃ fuel r, paramsLoop fuel acc st = some r) ∧
    (∀ st, (∀ t ∈ st.toks, t.type ≠ TokenType.RETURN) →
        st.toks.length + 1 - st.pos ≤ N →
        ∃ fuel r, parseCallArgs fuel st = some r) ∧
    (∀ acc st, (∀ t ∈ st.toks, t.type ≠ TokenType.RETURN) →
        st.toks.length + 1 - st.pos ≤ N →
        ∃ fuel r, argsLoop fuel acc st = some r) ∧
    (∀ left st, (∀ t ∈ st.toks, t.type ≠ TokenType.RETURN) →
        st.toks.length + 1 - st.pos ≤ N →
        ∃ fuel r, parseCallExpression fuel left st = some r) ∧
    (∀ left st, (∀ t ∈ st.toks, t.type ≠ TokenType.RETURN) →
        st.toks.length + 1 - st.pos ≤ N →
        ∃ fuel r, parseInfixExpression fuel left st = some r) ∧
    (∀ pf st, (∀ t ∈ st.toks, t.type ≠ TokenType.RETURN) →
        st.toks.length + 1 - st.pos ≤ N →
        ∃ fuel r, runPrefixFn fuel pf st = some r) ∧
    (∀ f left st, (∀ t ∈ st.toks, t.type ≠ TokenType.RETURN) →
        st.toks.length + 1 - st.pos ≤ N →
        ∃ fuel r, runInfixFn fuel f left st = some r) ∧
    (∀ prec st, (∀ t ∈ st.toks, t.type ≠ TokenType.RETURN) →
        st.toks.length + 1 - st.pos ≤ N →
        ∃ fuel r, parseExpression fuel prec st = some r) ∧
    (∀ st, (∀ t ∈ st.toks, t.type ≠ TokenType.RETURN) →
        st.toks.length + 1 - st.pos ≤ N →
        ∃ fuel r, parseExpressionStatement fuel st = some r) ∧
    (∀ st, (∀ t ∈ st.toks, t.type ≠ TokenType.RETURN) →
        st.toks.length + 1 - st.pos ≤ N →
        ∃ fuel r, parseLetStatement fuel st = some r) ∧
    (∀ st, (∀ t ∈ st.toks, t.type ≠ TokenType.RETURN) →
        st.toks.length + 1 - st.pos ≤ N →
        ∃ fuel r, parseStatement fuel st = some r) ∧
    (∀ tok st acc, (∀ t ∈ st.toks, t.type ≠ TokenType.RETURN) →
        st.toks.length + 1 - st.pos ≤ N →
        ∃ fuel r, blockLoop fuel tok st acc = some r) ∧
    (∀ st, (∀ t ∈ st.toks, t.type ≠ TokenType.RETURN) →
        st.toks.length + 1 - st.pos ≤ N →
        ∃ fuel r, parseBlockStatement fuel st = some r) := by
  intro N
  induction N using Nat.strong_induction_on with
  | _ N IH =>
  have TLoop : ∀ prec left st, (∀ t ∈ st.toks, t.type ≠ TokenType.RETURN) →
      st.toks.length + 1 - st.pos ≤ N →
      ∃ fuel r, parseExprLoop fuel prec left st = some r := by
    intro prec left st hnr hN
    by_cases hfar : st.toks.length ≤ st.pos
    · obtain ⟨r, hr⟩ := parseExprLoop_far hfar 0 prec left
      exact ⟨0 + 1, r, hr⟩
    · have hlt : st.pos < st.toks.length := by omega
      by_cases hc : (peekToken st).type ≠ TokenType.SEMICOLON ∧ prec < peekPrecedence st
      · rcases hif : infixParseFns (peekToken st).type with _ | f
        · refine ⟨0 + 1, (left, st), ?_⟩
          rw [parseExprLoop]
          rw [if_pos hc]
          simp only [hif]
        · obtain ⟨jLoop, -, -, -, -, -, -, -, -, -, -, -, jRunI, -, -, -, -, -, -⟩ :=
            IH (N - 1) (by omega)
          obtain ⟨f1, ⟨left1, st1⟩, h1⟩ := jRunI f left (nextTok st) hnr
            (show st.toks.length + 1 - (st.pos + 1) ≤ N - 1 by omega)
          obtain ⟨-, -, -, evRunI, -, -, -, -, -, -, -, -, -, -, -, -, -, -, -, -⟩ :=
            parser_stateEvol f1
          have hev1 := evRunI f left (nextTok st) (left1, st1) h1
          have htk1 : st1.toks = st.toks := hev1.1
          have hp1 : st.pos + 1 ≤ st1.pos := hev1.2
          obtain ⟨f2, r2, h2⟩ := jLoop prec left1 st1 (noRet_transfer htk1 hnr)
            (by have hlen : st1.toks.length = st.toks.length := by rw [htk1]
                omega)
          refine ⟨max f1 f2 + 1, r2, ?_⟩
          rw [parseExprLoop]
          rw [if_pos hc]
          simp only [hif]
          simp only [runInfixFn_fuelMono (Nat.le_max_left f1 f2) f left (nextTok st)
            (left1, st1) h1]
          exact parseExprLoop_fuelMono (Nat.le_max_right f1 f2) prec left1 st1 r2 h2
      · refine ⟨0 + 1, (left, st), ?_⟩
        rw [parseExprLoop]
        rw [if_neg hc]
  have TPre : ∀ st, (∀ t ∈ st.toks, t.type ≠ TokenType.RETURN) →
      st.toks.length + 1 - st.pos ≤ N →
      ∃ fuel r, parsePrefixExpression fuel st = some r := by
    intro st hnr hN
    by_cases hfar : st.toks.length ≤ st.pos
    · obtain ⟨r, hr⟩ := parsePrefixExpression_far hfar 0
      exact ⟨0 + 2, r, hr⟩
    · have hlt : st.pos < st.toks.length := by omega
      obtain ⟨-, -, -, -, -, -, -, -, -, -, -, -, -, jPE, -, -, -, -, -⟩ :=
        IH (N - 1) (by omega)
      obtain ⟨f1, ⟨right, st1⟩, h1⟩ := jPE PREFIX (nextTok st) hnr
        (show st.toks.length + 1 - (st.pos + 1) ≤ N - 1 by omega)
      refine ⟨f1 + 1, (some (.prefixE (currToken st) (currToken st).literal right), st1), ?_⟩
      simp only [parsePrefixExpression, h1]
  have TGrp : ∀ st, (∀ t ∈ st.toks, t.type ≠ TokenType.RETURN) →
      st.toks.length + 1 - st.pos ≤ N →
      ∃ fuel r, parseGroupedExpression fuel st = some r := by
    intro st hnr hN
    by_cases hfar : st.toks.length ≤ st.pos
    · obtain ⟨r, hr⟩ := parseGroupedExpression_far hfar 0
      exact ⟨0 + 2, r, hr⟩
    · have hlt : st.pos < st.toks.length := by omega
      obtain ⟨-, -, -, -, -, -, -, -, -, -, -, -, -, jPE, -, -, -, -, -⟩ :=
        IH (N - 1) (by omega)
      obtain ⟨f1, ⟨e, st1⟩, h1⟩ := jPE LOWEST (nextTok st) hnr
        (show st.toks.length + 1 - (st.pos + 1) ≤ N - 1 by omega)
      rcases hep : expectPeek TokenType.RPAREN st1 with ⟨ok, st2⟩
      cases ok with
      | true =>
        refine ⟨f1 + 1, (e, st2), ?_⟩
        simp only [parseGroupedExpression, h1, hep]
        rfl
      | false =>
        refine ⟨f1 + 1, (none, st2), ?_⟩
        simp only [parseGroupedExpression, h1, hep]
        rfl
  have TIf : ∀ st, (∀ t ∈ st.toks, t.type ≠ TokenType.RETURN) →
      st.toks.length + 1 - st.pos ≤ N →
      ∃ fuel r, parseIfExpression fuel st = some r := by
    intro st hnr hN
    by_cases hfar : st.toks.length ≤ st.pos
    · obtain ⟨r, hr⟩ := parseIfExpression_far hfar 0
      exact ⟨0 + 1, r, hr⟩
    · have hlt : st.pos < st.toks.length := by omega
      rcases hep1 : expectPeek TokenType.LPAREN st with ⟨ok1, st1⟩
      cases ok1 with
      | false =>
        refine ⟨0 + 1, (none, st1), ?_⟩
        simp only [parseIfExpression, hep1]
        rw [if_pos (by simp)]
      | true =>
        obtain ⟨hst1, -⟩ := expectPeek_eq_true hep1
        subst hst1
        obtain ⟨-, -, -, -, -, -, -, -, -, -, -, -, -, jPE, -, -, -, -, jBlk⟩ :=
          IH (N - 1) (by omega)
        obtain ⟨f1, ⟨cond, st2⟩, h1⟩ := jPE LOWEST (nextTok (nextTok st)) hnr
          (show st.toks.length + 1 - (st.pos + 2) ≤ N - 1 by omega)
        obtain ⟨evPE, -, -, -, -, -, -, -, -, -, -, -, -, -, -, -, -, -, -, -⟩ :=
          parser_stateEvol f1
        have hev2 := evPE LOWEST (nextTok (nextTok st)) (cond, st2) h1
        have htk2 : st2.toks = st.toks := hev2.1
        have hp2 : st.pos + 2 ≤ st2.pos := hev2.2
        rcases hep2 : expectPeek TokenType.RPAREN st2 with ⟨ok2, st3⟩
        cases ok2 with
        | false =>
          refine ⟨f1 + 1, (none, st3), ?_⟩
          simp only [parseIfExpression, hep1]
          rw [if_neg (by simp)]
          simp only [h1, hep2]
          rw [if_pos (by simp)]
        | true =>
          obtain ⟨hst3, -⟩ := expectPeek_eq_true hep2
          subst hst3
          rcases hep3 : expectPeek TokenType.LBRACE (nextTok st2) with ⟨ok3, st4⟩
          cases ok3 with
          | false =>
            refine ⟨f1 + 1, (none, st4), ?_⟩
            simp only [parseIfExpression, hep1]
            rw [if_neg (by simp)]
            simp only [h1, hep2]
            rw [if_neg (by simp)]
            simp only [hep3]
            rw [if_pos (by simp)]
          | true =>
            obtain ⟨hst4, -⟩ := expectPeek_eq_true hep3
            subst hst4
            obtain ⟨f2, ⟨cons, st5⟩, h2⟩ := jBlk (nextTok (nextTok st2))
              (noRet_transfer htk2 hnr)
              (by have hlen : st2.toks.length = st.toks.length := by rw [htk2]
                  show st2.toks.length + 1 - (st2.pos + 2) ≤ N - 1
                  omega)
            obtain ⟨-, -, -, -, -, -, -, -, evBlk, -, -, -, -, -, -, -, -, -, -, -⟩ :=
              parser_stateEvol f2
            have hev5 := evBlk (nextTok (nextTok st2)) (cons, st5) h2
            have htk5 : st5.toks = st.toks := hev5.1.trans htk2
            have hp5 : st2.pos + 2 ≤ st5.pos := hev5.2
            by_cases hel : (peekToken st5).type = TokenType.ELSE
            · rcases hep4 : expectPeek TokenType.LBRACE (nextTok st5) with ⟨ok4, st6⟩
              cases ok4 with
              | false =>
                refine ⟨max f1 f2 + 1, (none, st6), ?_⟩
                simp only [parseIfExpression, hep1]
                rw [if_neg (by simp)]
                simp only [parseExpression_fuelMono (Nat.le_max_left f1 f2) LOWEST
                  (nextTok (nextTok st)) (cond, st2) h1, hep2]
                rw [if_neg (by simp)]
                simp only [hep3]
                rw [if_neg (by simp)]
                simp only [parseBlockStatement_fuelMono (Nat.le_max_right f1 f2)
                  (nextTok (nextTok st2)) (cons, st5) h2]
                rw [if_pos hel]
                simp only [hep4]
                rw [if_pos (by simp)]
              | true =>
                obtain ⟨hst6, -⟩ := expectPeek_eq_true hep4
                subst hst6
                obtain ⟨f3, ⟨alt, st7⟩, h3⟩ := jBlk (nextTok (nextTok st5))
                  (noRet_transfer htk5 hnr)
                  (by have hlen : st5.toks.length = st.toks.length := by rw [htk5]
                      show st5.toks.length + 1 - (st5.pos + 2) ≤ N - 1
                      omega)
                refine ⟨max f1 (max f2 f3) + 1,
                  (some (.ifE (currToken st) cond (some cons) (some alt)), st7), ?_⟩
                simp only [parseIfExpression, hep1]
                rw [if_neg (by simp)]
                simp only [parseExpression_fuelMono (Nat.le_max_left f1 (max f2 f3))
                  LOWEST (nextTok (nextTok st)) (cond, st2) h1, hep2]
                rw [if_neg (by simp)]
                simp only [hep3]
                rw [if_neg (by simp)]
                simp only [parseBlockStatement_fuelMono
                  ((Nat.le_max_left f2 f3).trans (Nat.le_max_right f1 (max f2 f3)))
                  (nextTok (nextTok st2)) (cons, st5) h2]
                rw [if_pos hel]
                simp only [hep4]
                rw [if_neg (by simp)]
                simp only [parseBlockStatement_fuelMono
                  ((Nat.le_max_right f2 f3).trans (Nat.le_max_right f1 (max f2 f3)))
                  (nextTok (nextTok st5)) (alt, st7) h3]
            · refine ⟨max f1 f2 + 1,
                (some (.ifE (currToken st) cond (some cons) none), st5), ?_⟩
              simp only [parseIfExpression, hep1]
              rw [if_neg (by simp)]
              simp only [parseExpression_fuelMono (Nat.le_max_left f1 f2) LOWEST
                (nextTok (nextTok st)) (cond, st2) h1, hep2]
              rw [if_neg (by simp)]
              simp only [hep3]
              rw [if_neg (by simp)]
              simp only [parseBlockStatement_fuelMono (Nat.le_max_right f1 f2)
                (nextTok (nextTok st2)) (cons, st5) h2]
              rw [if_neg hel]
  have TFn : ∀ st, (∀ t ∈ st.toks, t.type ≠ TokenType.RETURN) →
      st.toks.length + 1 - st.pos ≤ N →
      ∃ fuel r, parseFunctionLiteral fuel st = some r := by
    intro st hnr hN
    by_cases hfar : st.toks.length ≤ st.pos
    · obtain ⟨r, hr⟩ := parseFunctionLiteral_far hfar 0
      exact ⟨0 + 1, r, hr⟩
    · have hlt : st.pos < st.toks.length := by omega
      rcases hep1 : expectPeek TokenType.LPAREN st with ⟨ok1, st1⟩
      cases ok1 with
      | false =>
        refine ⟨0 + 1, (none, st1), ?_⟩
        simp only [parseFunctionLiteral, hep1]
        rw [if_pos (by simp)]
      | true =>
        obtain ⟨hst1, -⟩ := expectPeek_eq_true hep1
        subst hst1
        obtain ⟨-, -, -, -, -, jPar, -, -, -, -, -, -, -, -, -, -, -, -, jBlk⟩ :=
          IH (N - 1) (by omega)
        obtain ⟨f1, ⟨params, st2⟩, h1⟩ := jPar (nextTok st) hnr
          (show st.toks.length + 1 - (st.pos + 1) ≤ N - 1 by omega)
        obtain ⟨-, -, -, -, -, -, -, -, -, -, -, evPar, -, -, -, -, -, -, -, -⟩ :=
          parser_stateEvol f1
        have hev2 := evPar (nextTok st) (params, st2) h1
        have htk2 : st2.toks = st.toks := hev2.1
        have hp2 : st.pos + 1 ≤ st2.pos := hev2.2
        rcases hep2 : expectPeek TokenType.LBRACE st2 with ⟨ok2, st3⟩
        cases ok2 with
        | false =>
          refine ⟨f1 + 1, (none, st3), ?_⟩
          simp only [parseFunctionLiteral, hep1]
          rw [if_neg (by simp)]
          simp only [h1, hep2]
          rw [if_pos (by simp)]
        | true =>
          obtain ⟨hst3, -⟩ := expectPeek_eq_true hep2
          subst hst3
          obtain ⟨f2, ⟨body, st4⟩, h2⟩ := jBlk (nextTok st2)
            (noRet_transfer htk2 hnr)
            (by have hlen : st2.toks.length = st.toks.length := by rw [htk2]
                show st2.toks.length + 1 - (st2.pos + 1) ≤ N - 1
                omega)
          refine ⟨max f1 f2 + 1,
            (some (.functionLitE (currToken st) params (some body)), st4), ?_⟩
          simp only [parseFunctionLiteral, hep1]
          rw [if_neg (by simp)]
          simp only [parseFunctionParams_fuelMono (Nat.le_max_left f1 f2) (nextTok st)
            (params, st2) h1, hep2]
          rw [if_neg (by simp)]
          simp only [parseBlockStatement_fuelMono (Nat.le_max_right f1 f2) (nextTok st2)
            (body, st4) h2]
  have TPar : ∀ st, (∀ t ∈ st.toks, t.type ≠ TokenType.RETURN) →
      st.toks.length + 1 - st.pos ≤ N →
      ∃ fuel r, parseFunctionParams fuel st = some r := by
    intro st hnr hN
    by_cases hfar : st.toks.length ≤ st.pos
    · obtain ⟨r, hr⟩ := parseFunctionParams_far hfar 0
      exact ⟨0 + 2, r, hr⟩
    · have hlt : st.pos < st.toks.length := by omega
      by_cases hpk : (peekToken st).type = TokenType.RPAREN
      · refine ⟨0 + 1, (some [], nextTok st), ?_⟩
        rw [parseFunctionParams]
        rw [if_pos hpk]
      · obtain ⟨-, -, -, -, -, -, jParL, -, -, -, -, -, -, -, -, -, -, -, -⟩ :=
          IH (N - 1) (by omega)
        obtain ⟨f1, r1, h1⟩ := jParL
          [⟨currToken (nextTok st), (currToken (nextTok st)).literal⟩] (nextTok st) hnr
          (show st.toks.length + 1 - (st.pos + 1) ≤ N - 1 by omega)
        refine ⟨f1 + 1, r1, ?_⟩
        rw [parseFunctionParams]
        rw [if_neg hpk]
        exact h1
  have TParL : ∀ acc st, (∀ t ∈ st.toks, t.type ≠ TokenType.RETURN) →
      st.toks.length + 1 - st.pos ≤ N →
      ∃ fuel r, paramsLoop fuel acc st = some r := by
    intro acc st hnr hN
    by_cases hfar : st.toks.length ≤ st.pos
    · obtain ⟨r, hr⟩ := paramsLoop_far hfar 0 acc
      exact ⟨0 + 1, r, hr⟩
    · have hlt : st.pos < st.toks.length := by omega
      by_cases hck : (peekToken st).type = TokenType.COMMA
      · obtain ⟨-, -, -, -, -, -, jParL, -, -, -, -, -, -, -, -, -, -, -, -⟩ :=
          IH (N - 1) (by omega)
        obtain ⟨f1, r1, h1⟩ := jParL
          (acc ++ [⟨currToken (nextTok (nextTok st)),
            (currToken (nextTok (nextTok st))).literal⟩]) (nextTok (nextTok st)) hnr
          (show st.toks.length + 1 - (st.pos + 2) ≤ N - 1 by omega)
        refine ⟨f1 + 1, r1, ?_⟩
        rw [paramsLoop]
        rw [if_pos hck]
        exact h1
      · rcases hep : expectPeek TokenType.RPAREN st with ⟨ok, st1⟩
        cases ok with
        | true =>
          refine ⟨0 + 1, (some acc, st1), ?_⟩
          rw [paramsLoop]
          rw [if_neg hck]
          simp only [hep]
          rfl
        | false =>
          refine ⟨0 + 1, (none, st1), ?_⟩
          rw [paramsLoop]
          rw [if_neg hck]
          simp only [hep]
          rfl
  have TCA : ∀ st, (∀ t ∈ st.toks, t.type ≠ TokenType.RETURN) →
      st.toks.length + 1 - st.pos ≤ N →
      ∃ fuel r, parseCallArgs fuel st = some r := by
    intro st hnr hN
    by_cases hfar : st.toks.length ≤ st.pos
    · obtain ⟨r, hr⟩ := parseCallArgs_far hfar 0
      exact ⟨0 + 2, r, hr⟩
    · have hlt : st.pos < st.toks.length := by omega
      by_cases hpk : (peekToken st).type = TokenType.RPAREN
      · refine ⟨0 + 1, (some [], nextTok st), ?_⟩
        rw [parseCallArgs]
        rw [if_pos hpk]
      · obtain ⟨-, -, -, -, -, -, -, -, jAL, -, -, -, -, jPE, -, -, -, -, -⟩ :=
          IH (N - 1) (by omega)
        obtain ⟨f1, ⟨a, st1⟩, h1⟩ := jPE LOWEST (nextTok st) hnr
          (show st.toks.length + 1 - (st.pos + 1) ≤ N - 1 by omega)
        obtain ⟨evPE, -, -, -, -, -, -, -, -, -, -, -, -, -, -, -, -, -, -, -⟩ :=
          parser_stateEvol f1
        have hev1 := evPE LOWEST (nextTok st) (a, st1) h1
        have htk1 : st1.toks = st.toks := hev1.1
        have hp1 : st.pos + 1 ≤ st1.pos := hev1.2
        obtain ⟨f2, r2, h2⟩ := jAL [a] st1 (noRet_transfer htk1 hnr)
          (by have hlen : st1.toks.length = st.toks.length := by rw [htk1]
              omega)
        refine ⟨max f1 f2 + 1, r2, ?_⟩
        rw [parseCallArgs]
        rw [if_neg hpk]
        simp only [parseExpression_fuelMono (Nat.le_max_left f1 f2) LOWEST (nextTok st)
          (a, st1) h1]
        exact argsLoop_fuelMono (Nat.le_max_right f1 f2) [a] st1 r2 h2
  have TAL : ∀ acc st, (∀ t ∈ st.toks, t.type ≠ TokenType.RETURN) →
      st.toks.length + 1 - st.pos ≤ N →
      ∃ fuel r, argsLoop fuel acc st = some r := by
    intro acc st hnr hN
    by_cases hfar : st.toks.length ≤ st.pos
    · obtain ⟨r, hr⟩ := argsLoop_far hfar 0 acc
      exact ⟨0 + 1, r, hr⟩
    · have hlt : st.pos < st.toks.length := by omega
      by_cases hck : (peekToken st).type = TokenType.COMMA
      · obtain ⟨-, -, -, -, -, -, -, -, jAL, -, -, -, -, jPE, -, -, -, -, -⟩ :=
          IH (N - 1) (by omega)
        obtain ⟨f1, ⟨a, st1⟩, h1⟩ := jPE LOWEST (nextTok (nextTok st)) hnr
          (show st.toks.length + 1 - (st.pos + 2) ≤ N - 1 by omega)
        obtain ⟨evPE, -, -, -, -, -, -, -, -, -, -, -, -, -, -, -, -, -, -, -⟩ :=
          parser_stateEvol f1
        have hev1 := evPE LOWEST (nextTok (nextTok st)) (a, st1) h1
        have htk1 : st1.toks = st.toks := hev1.1
        have hp1 : st.pos + 2 ≤ st1.pos := hev1.2
        obtain ⟨f2, r2, h2⟩ := jAL (acc ++ [a]) st1 (noRet_transfer htk1 hnr)
          (by have hlen : st1.toks.length = st.toks.length := by rw [htk1]
              omega)
        refine ⟨max f1 f2 + 1, r2, ?_⟩
        rw [argsLoop]
        rw [if_pos hck]
        simp only [parseExpression_fuelMono (Nat.le_max_left f1 f2) LOWEST
          (nextTok (nextTok st)) (a, st1) h1]
        exact argsLoop_fuelMono (Nat.le_max_right f1 f2) (acc ++ [a]) st1 r2 h2
      · rcases hep : expectPeek TokenType.RPAREN st with ⟨ok, st1⟩
        cases ok with
        | true =>
          refine ⟨0 + 1, (some acc, st1), ?_⟩
          rw [argsLoop]
          rw [if_neg hck]
          simp only [hep]
          rfl
        | false =>
          refine ⟨0 + 1, (none, st1), ?_⟩
          rw [argsLoop]
          rw [if_neg hck]
          simp only [hep]
          rfl
  have TCall : ∀ left st, (∀ t ∈ st.toks, t.type ≠ TokenType.RETURN) →
      st.toks.length + 1 - st.pos ≤ N →
      ∃ fuel r, parseCallExpression fuel left st = some r := by
    intro left st hnr hN
    obtain ⟨f1, ⟨args, st1⟩, h1⟩ := TCA st hnr hN
    refine ⟨f1 + 1, (some (.callE (currToken st) left args), st1), ?_⟩
    simp only [parseCallExpression, h1]
  have TInf : ∀ left st, (∀ t ∈ st.toks, t.type ≠ TokenType.RETURN) →
      st.toks.length + 1 - st.pos ≤ N →
      ∃ fuel r, parseInfixExpression fuel left st = some r := by
    intro left st hnr hN
    by_cases hfar : st.toks.length ≤ st.pos
    · obtain ⟨r, hr⟩ := parseInfixExpression_far hfar 0 left
      exact ⟨0 + 2, r, hr⟩
    · have hlt : st.pos < st.toks.length := by omega
      obtain ⟨-, -, -, -, -, -, -, -, -, -, -, -, -, jPE, -, -, -, -, -⟩ :=
        IH (N - 1) (by omega)
      obtain ⟨f1, ⟨right, st1⟩, h1⟩ := jPE
        (if (currToken st).literal = "+" then currPrecendence st - 1
         else currPrecendence st) (nextTok st) hnr
        (show st.toks.length + 1 - (st.pos + 1) ≤ N - 1 by omega)
      refine ⟨f1 + 1, (some (.infixE (currToken st) (currToken st).literal left right),
        st1), ?_⟩
      simp only [parseInfixExpression, h1]
  have TRunP : ∀ pf st, (∀ t ∈ st.toks, t.type ≠ TokenType.RETURN) →
      st.toks.length + 1 - st.pos ≤ N →
      ∃ fuel r, runPrefixFn fuel pf st = some r := by
    intro pf st hnr hN
    cases pf with
    | pIdent => exact ⟨0 + 1, (some (parseIdentifier st), st), by rw [runPrefixFn]⟩
    | pIntLit => exact ⟨0 + 1, parseIntegerLiteral st, by rw [runPrefixFn]⟩
    | pPrefixExpr =>
      obtain ⟨f, r, h⟩ := TPre st hnr hN
      exact ⟨f + 1, r, by rw [runPrefixFn]; exact h⟩
    | pBool => exact ⟨0 + 1, (some (parseBoolean st), st), by rw [runPrefixFn]⟩
    | pGrouped =>
      obtain ⟨f, r, h⟩ := TGrp st hnr hN
      exact ⟨f + 1, r, by rw [runPrefixFn]; exact h⟩
    | pIf =>
      obtain ⟨f, r, h⟩ := TIf st hnr hN
      exact ⟨f + 1, r, by rw [runPrefixFn]; exact h⟩
    | pFunctionLit =>
      obtain ⟨f, r, h⟩ := TFn st hnr hN
      exact ⟨f + 1, r, by rw [runPrefixFn]; exact h⟩
  have TRunI : ∀ f left st, (∀ t ∈ st.toks, t.type ≠ TokenType.RETURN) →
      st.toks.length + 1 - st.pos ≤ N →
      ∃ fuel r, runInfixFn fuel f left st = some r := by
    intro f left st hnr hN
    cases f with
    | iInfixExpr =>
      obtain ⟨g, r, h⟩ := TInf left st hnr hN
      exact ⟨g + 1, r, by rw [runInfixFn]; exact h⟩
    | iCall =>
      obtain ⟨g, r, h⟩ := TCall left st hnr hN
      exact ⟨g + 1, r, by rw [runInfixFn]; exact h⟩
  have TPE : ∀ prec st, (∀ t ∈ st.toks, t.type ≠ TokenType.RETURN) →
      st.toks.length + 1 - st.pos ≤ N →
      ∃ fuel r, parseExpression fuel prec st = some r := by
    intro prec st hnr hN
    rcases hpf : prefixParseFns (currToken st).type with _ | pf
    · refine ⟨0 + 1, (none, noPrefixParseFnError (currToken st).type st), ?_⟩
      rw [parseExpression]
      simp only [hpf]
    · obtain ⟨f1, ⟨left, st1⟩, h1⟩ := TRunP pf st hnr hN
      obtain ⟨-, -, evRunP, -, -, -, -, -, -, -, -, -, -, -, -, -, -, -, -, -⟩ :=
        parser_stateEvol f1
      have hev1 := evRunP pf st (left, st1) h1
      have htk1 : st1.toks = st.toks := hev1.1
      have hp1 : st.pos ≤ st1.pos := hev1.2
      obtain ⟨f2, r2, h2⟩ := TLoop prec left st1 (noRet_transfer htk1 hnr)
        (by have hlen : st1.toks.length = st.toks.length := by rw [htk1]
            omega)
      refine ⟨max f1 f2 + 1, r2, ?_⟩
      rw [parseExpression]
      simp only [hpf]
      simp only [runPrefixFn_fuelMono (Nat.le_max_left f1 f2) pf st (left, st1) h1]
      exact parseExprLoop_fuelMono (Nat.le_max_right f1 f2) prec left st1 r2 h2
  have TES : ∀ st, (∀ t ∈ st.toks, t.type ≠ TokenType.RETURN) →
      st.toks.length + 1 - st.pos ≤ N →
      ∃ fuel r, parseExpressionStatement fuel st = some r := by
    intro st hnr hN
    obtain ⟨f1, ⟨e, st1⟩, h1⟩ := TPE LOWEST st hnr hN
    by_cases hs : (peekToken st1).type = TokenType.SEMICOLON
    · refine ⟨f1 + 1, (some (.exprS (currToken st) e), nextTok st1), ?_⟩
      simp only [parseExpressionStatement, h1]
      rw [if_pos hs]
    · refine ⟨f1 + 1, (some (.exprS (currToken st) e), st1), ?_⟩
      simp only [parseExpressionStatement, h1]
      rw [if_neg hs]
  have TLet : ∀ st, (∀ t ∈ st.toks, t.type ≠ TokenType.RETURN) →
      st.toks.length + 1 - st.pos ≤ N →
      ∃ fuel r, parseLetStatement fuel st = some r := by
    intro st hnr hN
    by_cases hfar : st.toks.length ≤ st.pos
    · obtain ⟨r, hr⟩ := parseLetStatement_far hfar 0
      exact ⟨0 + 1, r, hr⟩
    · have hlt : st.pos < st.toks.length := by omega
      rcases hep1 : expectPeek TokenType.IDENT st with ⟨ok1, st1⟩
      cases ok1 with
      | false =>
        refine ⟨0 + 1, (none, st1), ?_⟩
        simp only [parseLetStatement, hep1]
        rw [if_pos (by simp)]
      | true =>
        obtain ⟨hst1, -⟩ := expectPeek_eq_true hep1
        subst hst1
        rcases hep2 : expectPeek TokenType.ASSIGN (nextTok st) with ⟨ok2, st2⟩
        cases ok2 with
        | false =>
          refine ⟨0 + 1, (none, st2), ?_⟩
          simp only [parseLetStatement, hep1]
          rw [if_neg (by simp)]
          simp only [hep2]
          rw [if_pos (by simp)]
        | true =>
          obtain ⟨hst2, -⟩ := expectPeek_eq_true hep2
          subst hst2
          obtain ⟨-, -, -, -, -, -, -, -, -, -, -, -, -, jPE, -, -, -, -, -⟩ :=
            IH (N - 1) (by omega)
          obtain ⟨f1, ⟨v, st3⟩, h1⟩ := jPE LOWEST (nextTok (nextTok (nextTok st))) hnr
            (show st.toks.length + 1 - (st.pos + 3) ≤ N - 1 by omega)
          by_cases hs : (peekToken st3).type = TokenType.SEMICOLON
          · refine ⟨f1 + 1, (some (.letS (currToken st)
              ⟨currToken (nextTok st), (currToken (nextTok st)).literal⟩ v),
              nextTok st3), ?_⟩
            simp only [parseLetStatement, hep1]
            rw [if_neg (by simp)]
            simp only [hep2]
            rw [if_neg (by simp)]
            simp only [h1]
            rw [if_pos hs]
          · refine ⟨f1 + 1, (some (.letS (currToken st)
              ⟨currToken (nextTok st), (currToken (nextTok st)).literal⟩ v), st3), ?_⟩
            simp only [parseLetStatement, hep1]
            rw [if_neg (by simp)]
            simp only [hep2]
            rw [if_neg (by simp)]
            simp only [h1]
            rw [if_neg hs]
  have TStmt : ∀ st, (∀ t ∈ st.toks, t.type ≠ TokenType.RETURN) →
      st.toks.length + 1 - st.pos ≤ N →
      ∃ fuel r, parseStatement fuel st = some r := by
    intro st hnr hN
    by_cases hfar : st.toks.length ≤ st.pos
    · obtain ⟨r, hr⟩ := parseStatement_far hfar 0
      exact ⟨0 + 3, r, hr⟩
    · have hlt : st.pos < st.toks.length := by omega
      cases hty : (currToken st).type <;>
        first
          | exact absurd hty (hnr (currToken st) (currToken_mem hlt))
          | (obtain ⟨f, r, h⟩ := TLet st hnr hN
             refine ⟨f + 1, r, ?_⟩
             rw [parseStatement, hty]
             exact h)
          | (obtain ⟨f, r, h⟩ := TES st hnr hN
             refine ⟨f + 1, r, ?_⟩
             rw [parseStatement, hty]
             exact h)
  have TBL : ∀ tok st acc, (∀ t ∈ st.toks, t.type ≠ TokenType.RETURN) →
      st.toks.length + 1 - st.pos ≤ N →
      ∃ fuel r, blockLoop fuel tok st acc = some r := by
    intro tok st acc hnr hN
    by_cases hfar : st.toks.length ≤ st.pos
    · obtain ⟨r, hr⟩ := blockLoop_far hfar 0 tok acc
      exact ⟨0 + 1, r, hr⟩
    · have hlt : st.pos < st.toks.length := by omega
      by_cases hc : (currToken st).type ≠ TokenType.RBRACE ∧
          (currToken st).type ≠ TokenType.EOF
      · obtain ⟨f1, ⟨s, st1⟩, h1⟩ := TStmt st hnr hN
        obtain ⟨-, -, -, -, -, -, -, -, -, -, -, -, -, -, -, -, -, -, -, evStmt⟩ :=
          parser_stateEvol f1
        have hev1 := evStmt st (s, st1) h1
        have htk1 : st1.toks = st.toks := hev1.1
        have hp1 : st.pos ≤ st1.pos := hev1.2
        obtain ⟨-, -, -, -, -, -, -, -, -, -, -, -, -, -, -, -, -, jBL, -⟩ :=
          IH (N - 1) (by omega)
        obtain ⟨f2, r2, h2⟩ := jBL tok (nextTok st1) (acc ++ [s])
          (noRet_transfer htk1 hnr)
          (by have hlen : st1.toks.length = st.toks.length := by rw [htk1]
              show st1.toks.length + 1 - (st1.pos + 1) ≤ N - 1
              omega)
        refine ⟨max f1 f2 + 1, r2, ?_⟩
        rw [blockLoop]
        rw [if_pos hc]
        simp only [parseStatement_fuelMono (Nat.le_max_left f1 f2) st (s, st1) h1]
        exact blockLoop_fuelMono (Nat.le_max_right f1 f2) tok (nextTok st1)
          (acc ++ [s]) r2 h2
      · refine ⟨0 + 1, (.mk tok acc, st), ?_⟩
        rw [blockLoop]
        rw [if_neg hc]
  have TBlk : ∀ st, (∀ t ∈ st.toks, t.type ≠ TokenType.RETURN) →
      st.toks.length + 1 - st.pos ≤ N →
      ∃ fuel r, parseBlockStatement fuel st = some r := by
    intro st hnr hN
    by_cases hfar : st.toks.length ≤ st.pos
    · obtain ⟨r, hr⟩ := parseBlockStatement_far hfar 0
      exact ⟨0 + 2, r, hr⟩
    · have hlt : st.pos < st.toks.length := by omega
      obtain ⟨-, -, -, -, -, -, -, -, -, -, -, -, -, -, -, -, -, jBL, -⟩ :=
        IH (N - 1) (by omega)
      obtain ⟨f1, r1, h1⟩ := jBL (currToken st) (nextTok st) [] hnr
        (show st.toks.length + 1 - (st.pos + 1) ≤ N - 1 by omega)
      refine ⟨f1 + 1, r1, ?_⟩
      rw [parseBlockStatement]
      exact h1
  exact ⟨TLoop, TPre, TGrp, TIf, TFn, TPar, TParL, TCA, TAL, TCall, TInf, TRunP,
    TRunI, TPE, TES, TLet, TStmt, TBL, TBlk⟩

theorem parseProgLoop_total : ∀ N : Nat, ∀ st acc,
    (∀ t ∈ st.toks, t.type ≠ TokenType.RETURN) →
    st.toks.length + 1 - st.pos ≤ N →
    ∃ fuel r, parseProgLoop fuel st acc = some r := by
  intro N
  induction N using Nat.strong_induction_on with
  | _ N IH =>
  intro st acc hnr hN
  by_cases hc : (currToken st).type = TokenType.EOF
  · refine ⟨0 + 1, (⟨acc⟩, st), ?_⟩
    rw [parseProgLoop]
    rw [if_pos hc]
  · have hlt : st.pos < st.toks.length := by
      by_contra hge
      exact hc (by rw [currToken_far (by omega)]; rfl)
    obtain ⟨-, -, -, -, -, -, -, -, -, -, -, -, -, -, -, -, TStmt', -, -⟩ :=
      parser_total N
    obtain ⟨f1, ⟨s, st1⟩, h1⟩ := TStmt' st hnr hN
    obtain ⟨-, -, -, -, -, -, -, -, -, -, -, -, -, -, -, -, -, -, -, evStmt⟩ :=
      parser_stateEvol f1
    have hev1 := evStmt st (s, st1) h1
    have htk1 : st1.toks = st.toks := hev1.1
    have hp1 : st.pos ≤ st1.pos := hev1.2
    obtain ⟨f2, r2, h2⟩ := IH (N - 1) (by omega) (nextTok st1) (acc ++ [s])
      (noRet_transfer htk1 hnr)
      (by have hlen : st1.toks.length = st.toks.length := by rw [htk1]
          show st1.toks.length + 1 - (st1.pos + 1) ≤ N - 1
          omega)
    refine ⟨max f1 f2 + 1, r2, ?_⟩
    rw [parseProgLoop]
    rw [if_neg hc]
    simp only [parseStatement_fuelMono (Nat.le_max_left f1 f2) st (s, st1) h1]
    exact parseProgLoop_fuelMono (Nat.le_max_right f1 f2) (nextTok st1) (acc ++ [s]) r2 h2

/-- On a token stream that never contains the return keyword, the whole
program parse completes for a sufficient fuel: the return-statement scan is
the only source of divergence. -/
theorem ParseProg_total (toks : List Token)
    (hnr : ∀ t ∈ toks, t.type ≠ TokenType.RETURN) :
    ∃ fuel r, ParseProg fuel toks = some r := by
  obtain ⟨fuel, r, h⟩ := parseProgLoop_total (toks.length + 1) ⟨toks, 0, []⟩ [] hnr
    (Nat.le_refl _)
  exact ⟨fuel, r, h⟩

/-- C3: after the return value, `parseReturnStatement` scans to a semicolon:
the scan terminates exactly when a semicolon token appears at or after the
scan position — when the first such token is k positions ahead, k + 1 loop
steps reach it — and when no semicolon lies ahead, no amount of fuel
completes the scan (in the source the lexer yields end-of-input tokens
forever, so the loop never exits: the non-terminating case). Concretely,
"return 5;" parses to a return statement, while on "return 5" no fuel
completes `parseReturnStatement` — the scan does not terminate. It is the
only non-terminating case: on a finite stream with no return keyword the
whole program parse completes for a sufficient fuel. -/
theorem C3_return_scan_termination :
    (∀ st : PState,
      match firstSemiIdx (st.toks.drop st.pos) with
      | some k => scanToSemi (k + 1) st = some ⟨st.toks, st.pos + k, st.errors⟩
      | none => ∀ fuel, scanToSemi fuel st = none) ∧
    parseReturnStatement 50 ⟨returnSemiToks, 0, []⟩ =
      some (some (.returnS ⟨.RETURN, "return"⟩
        (some (.integerLiteralE ⟨.INT, "5"⟩ 5))), ⟨returnSemiToks, 2, []⟩) ∧
    (∀ fuel, parseReturnStatement fuel ⟨returnNoSemiToks, 0, []⟩ = none) ∧
    (∀ toks : List Token, (∀ t ∈ toks, t.type ≠ TokenType.RETURN) →
      ∃ fuel r, ParseProg fuel toks = some r) := by
  refine ⟨fun st => ?_, rfl, fun fuel => ?_, ParseProg_total⟩
  · rcases h : firstSemiIdx (st.toks.drop st.pos) with _ | k
    · exact fun fuel => scanToSemi_none_of_no_semi fuel st (firstSemiIdx_none_no_semi _ h)
    · exact scanToSemi_finds k st h
  · match fuel with
    | 0 => rfl
    | 1 => rfl
    | 2 => rfl
    | (n + 3) =>
      have he : parseExpression (n + 2) LOWEST (nextTok ⟨returnNoSemiToks, 0, []⟩) =
          some (some (.integerLiteralE ⟨.INT, "5"⟩ 5), ⟨returnNoSemiToks, 1, []⟩) :=
        parseExpression_returnNoSemi n
      have hs : scanToSemi (n + 2) ⟨returnNoSemiToks, 1, []⟩ = none := by
        apply scanToSemi_none_of_no_semi
        decide
      rw [parseReturnStatement]
      simp only [he, hs]

/-- Witness for C3: the token stream of "let 5;" contains no return keyword,
and the theorem instantiated there yields a completing program parse. -/
theorem C3_return_scan_termination_witness :
    (∀ t ∈ letFiveToks, t.type ≠ TokenType.RETURN) ∧
    ∃ fuel r, ParseProg fuel letFiveToks = some r :=
  ⟨by decide, C3_return_scan_termination.2.2.2 letFiveToks (by decide)⟩

/-- C10: the diagnostic list is append-only — the accessor returns the
recorded list itself, the two recording operations append exactly one entry
at the end, and every completed run of the expression, statement and program
parsers leaves the initial diagnostic list as a prefix of the final one
(entries are only ever appended, never removed or reordered). -/
theorem C10_diagnostics_append_only :
    (∀ st : PState, Errors st = st.errors) ∧
    (∀ (t : TokenType) (st : PState),
        (peekError t st).errors = st.errors ++ [peekErrorMsg t st]) ∧
    (∀ (t : TokenType) (st : PState),
        (noPrefixParseFnError t st).errors = st.errors ++ [noPrefixMsg t]) ∧
    (∀ (fuel prec : Nat) (st : PState) (r : Option Expr × PState),
        parseExpression fuel prec st = some r → errsExtend st r.2) ∧
    (∀ (fuel : Nat) (st : PState) (r : Option Stmt × PState),
        parseStatement fuel st = some r → errsExtend st r.2) ∧
    (∀ (fuel : Nat) (st : PState) (acc : List (Option Stmt)) (r : Program × PState),
        parseProgLoop fuel st acc = some r → errsExtend st r.2) := by
  refine ⟨fun _ => rfl, fun _ _ => rfl, fun _ _ => rfl, ?_, ?_, ?_⟩
  · exact fun fuel prec st r h => (parser_errsExtend fuel).1 prec st r h
  · exact fun fuel st r h =>
      (parser_errsExtend fuel).2.2.2.2.2.2.2.2.2.2.2.2.2.2.2.2.2.2.2 st r h
  · exact parseProgLoop_errsExtend

/-- C10 witness: the program-loop conjunct applied to the concrete parse of
"let 5;", whose failing identifier check appends one diagnostic. -/
theorem C10_diagnostics_append_only_witness :
    errsExtend ⟨letFiveToks, 0, []⟩
      ⟨letFiveToks, 3, ["Unexpexted token IDENT, expected LET"]⟩ :=
  C10_diagnostics_append_only.2.2.2.2.2 50 ⟨letFiveToks, 0, []⟩ []
    (⟨[none, some (.exprS ⟨.INT, "5"⟩ (some (.integerLiteralE ⟨.INT, "5"⟩ 5)))]⟩,
      ⟨letFiveToks, 3, ["Unexpexted token IDENT, expected LET"]⟩) rfl

end Interp
